import Mathlib

/-!
Shallow embedding of the aws-serverless-simple storage core
(src/service/dynamo.js and src/util.js) with proofs about it.

Conventions: JavaScript numbers that only ever hold small non-negative
integers are modelled as Nat; JS objects are association lists with
first-match lookup; fallible paths return Option or Except; the remote
DynamoDB client is an explicit oracle parameter.
-/

namespace Dyn

/-- Model of the DatabaseError class from src/errors.js: the constructor
prefixes the message. -/
structure DatabaseError where
  message : String
deriving DecidableEq

/-- DatabaseError constructor: wraps the message with the class prefix. -/
def dbError (m : String) : DatabaseError :=
  ⟨("DatabaseError: ") ++ m⟩

/-- Model of the inner hashValueHash helper of partition (dynamo.js line 26):
big-endian combination of four byte values; the trailing mod 2^32 models
the JS unsigned shift coercion a >>> 0. -/
def hashValueHash (a b c d : Nat) : Nat :=
  ((a <<< 24) ||| (b <<< 16) ||| (c <<< 8) ||| d) % 2 ^ 32

/-- Model of the digest helper of partition (dynamo.js line 20): character
codes of the hex digest string.  The sha1-hex primitive from the crypto
library is the parameter hex; the repository treats it as an opaque
deterministic function producing a hex string. -/
def digestCodes (hex : String → String) (k : String) : List Nat :=
  (hex k).data.map Char.toNat

/-- Model of partition (dynamo.js lines 17-35): combines the character
codes at indices 3,2,1,0 of the digest and reduces modulo partitions.
A missing index reads as 0, matching the JS coercion of undefined inside
the bitwise expression. -/
def partition (hex : String → String) (k : String) (partitions : Nat) : Nat :=
  let x := digestCodes hex k
  hashValueHash (x.getD 3 0) (x.getD 2 0) (x.getD 1 0) (x.getD 0 0) % partitions

/-- Model of the lodash chunk helper used by transactWrite and putBatch:
consecutive sublists of length n (last one possibly shorter); size 0
yields no chunks, as in lodash. -/
def chunkList (n : Nat) : List α → List (List α)
  | [] => []
  | c :: rest =>
    if h : n = 0 then []
    else (c :: rest).take n :: chunkList n ((c :: rest).drop n)
termination_by l => l.length
decreasing_by
  simp only [List.length_drop, List.length_cons]
  omega

/-- Outcome of one attempt of the underlying client transactWrite call:
success, or a rejection carrying the error message. -/
inductive TOutcome where
  | ok : TOutcome
  | err : String → TOutcome

/-- Substring test on character lists, modelling the JS regex test
error.message.match with a literal pattern. -/
def goContains : List Char → List Char → Bool
  | [], pat => pat.isEmpty
  | c :: t, pat => pat.isPrefixOf (c :: t) || goContains t pat

/-- String containment used by the conflict-retry loop. -/
def strContains (s pat : String) : Bool :=
  goContains s.data pat.data

/-- Conflict test from dynamo.js line 327: the error message matches the
TransactionConflict pattern. -/
def isConflict (m : String) : Bool :=
  strContains m ("TransactionConflict")

/-- Model of the conflict-retry loop of DynamoDB.transactWrite
(dynamo.js lines 311-337).  store gives the outcome of each numbered
attempt; attempts counts attempts already made.  Attempt number
attempts+1 is only made if it does not exceed 20. -/
def retryAux (store : Nat → TOutcome) (attempts : Nat) : Except DatabaseError Unit :=
  if h : attempts + 1 > 20 then
    .error (dbError ("Max attempts retrying TransactionConflict"))
  else
    match store (attempts + 1) with
    | .ok => .ok ()
    | .err m =>
      if isConflict m then retryAux store (attempts + 1)
      else .error (dbError m)
termination_by 20 - attempts
decreasing_by omega

/-- Combine the results of the per-chunk calls: the Promise.all of the
chunked branch succeeds exactly when every chunk call succeeds, and
surfaces a chunk error otherwise. -/
def allOk : List (Except DatabaseError Unit) → Except DatabaseError Unit
  | [] => .ok ()
  | .error e :: _ => .error e
  | .ok _ :: rest => allOk rest

/-- Model of DynamoDB.transactWrite (dynamo.js lines 246-341).  ops is the
operation list, limit the transactLimit, and store the client oracle: for
given call parameters it yields the outcome of each numbered attempt of
the underlying client call.  When the list is over the limit the source
recurses on chunks of size limit; every such chunk is at or below the
limit, so each recursive call takes the base branch, which is written out
directly here. -/
def transactWrite (limit : Nat) (ops : List α) (store : List α → Nat → TOutcome) :
    Except DatabaseError Unit :=
  if ops.length > limit then
    allOk ((chunkList limit ops).map fun part => retryAux (store part) 0)
  else
    retryAux (store ops) 0

/-- Model of DynamoDB.putBatch (dynamo.js lines 94-127).  The client
batchWrite oracle reports none for success or the error message; over the
limit the source recurses on chunks of size limit, each of which takes
the base branch. -/
def putBatch (limit : Nat) (items : List α) (store : List α → Option String) :
    Except DatabaseError Bool :=
  if items.length > limit then
    if ((chunkList limit items).map fun part => store part).all Option.isNone then
      .ok true
    else
      match ((chunkList limit items).filterMap fun part => store part) with
      | [] => .ok true
      | m :: _ => .error (dbError m)
  else
    match store items with
    | none => .ok true
    | some m => .error (dbError m)

/-- The list of underlying atomic calls made by transactWrite for a given
operation list: the chunks when over the limit, otherwise the single
list itself. -/
def transactWriteCalls (limit : Nat) (ops : List α) : List (List α) :=
  if ops.length > limit then chunkList limit ops else [ops]

/-- The list of underlying batchWrite calls made by putBatch. -/
def putBatchCalls (limit : Nat) (items : List α) : List (List α) :=
  if items.length > limit then chunkList limit items else [items]

/-- Whitespace test used by the model of the Number conversion. -/
def isWs (c : Char) : Bool :=
  c = ' ' || c = '\t' || c = '\n' || c = '\r'

/-- Trim leading and trailing whitespace from a character list. -/
def trimWs (l : List Char) : List Char :=
  ((l.dropWhile isWs).reverse.dropWhile isWs).reverse

/-- Numeric value of a digit list, most significant first. -/
def digitsVal (l : List Char) : Nat :=
  l.foldl (fun acc c => acc * 10 + (c.toNat - ('0').toNat)) 0

/-- Parse the exponent tail of a JS numeric literal and scale the
mantissa accordingly; an empty tail leaves the mantissa unchanged. -/
def parseExp (q : ℚ) : List Char → Option ℚ
  | [] => some q
  | c :: rest =>
    if c = 'e' || c = 'E' then
      match rest with
      | '+' :: ds => if ds ≠ [] ∧ ds.all Char.isDigit then some (q * 10 ^ digitsVal ds) else none
      | '-' :: ds => if ds ≠ [] ∧ ds.all Char.isDigit then some (q / 10 ^ digitsVal ds) else none
      | ds => if ds ≠ [] ∧ ds.all Char.isDigit then some (q * 10 ^ digitsVal ds) else none
    else none

/-- Parse an unsigned JS decimal literal: digits, optionally a decimal
point with further digits, optionally an exponent; at least one digit
overall. -/
def parseUnsigned (l : List Char) : Option ℚ :=
  let ds := l.takeWhile Char.isDigit
  let rest := l.dropWhile Char.isDigit
  match rest with
  | '.' :: rest2 =>
    let fs := rest2.takeWhile Char.isDigit
    let rest3 := rest2.dropWhile Char.isDigit
    if ds = [] ∧ fs = [] then none
    else parseExp ((digitsVal ds : ℚ) + (digitsVal fs : ℚ) / 10 ^ fs.length) rest3
  | _ => if ds = [] then none else parseExp (digitsVal ds : ℚ) rest

/-- Outcome of the JS Number conversion: NaN, a finite double value
(every finite double is an exact rational), or an infinity with its
sign.  The conversion itself is a language primitive; the coercion
theorems quantify over it. -/
inductive JSNum where
  | nan : JSNum
  | fin : ℚ → JSNum
  | inf : Bool → JSNum
deriving DecidableEq

/-- JS truthiness of a number: NaN and zero are falsy, every other
number, infinities included, is truthy. -/
def JSNum.truthy : JSNum → Bool
  | .nan => false
  | .fin q => decide (q ≠ 0)
  | .inf _ => true

/-- A concrete instance of the numeric-conversion primitive covering
plain decimal literals (trimmed, empty converts to 0, signed decimal
with optional fraction and exponent, anything else NaN).  It is used by
the witness and counterexample only at strings where it agrees with the
JS Number conversion; the coercion theorems themselves quantify over the
primitive, so hex, binary, octal and Infinity literals and double
rounding or underflow need no model here. -/
def jsToNumber (s : String) : JSNum :=
  match trimWs s.data with
  | [] => .fin 0
  | '+' :: rest =>
    match parseUnsigned rest with
    | some q => .fin q
    | none => .nan
  | '-' :: rest =>
    match parseUnsigned rest with
    | some q => .fin (-q)
    | none => .nan
  | l =>
    match parseUnsigned l with
    | some q => .fin q
    | none => .nan

/-- The value a filter places into the expression attribute values:
a boolean, a number, or the original string. -/
inductive FilterVal where
  | b : Bool → FilterVal
  | n : JSNum → FilterVal
  | s : String → FilterVal
deriving DecidableEq

/-- String path of the filter-value coercion (dynamo.js lines 201-209):
the literal true and false strings become booleans, anything else stays
a string. -/
def filterStrVal (v : String) : FilterVal :=
  if v = ("true") then .b true
  else if v = ("false") then .b false
  else .s v

/-- Model of the filter-value coercion of DynamoDB.query (dynamo.js lines
193-209): Number(value) is assigned back only when truthy; the
strict-equality checks against the true and false literals then only
fire on the string path.  number is the Number primitive. -/
def filterValue (number : String → JSNum) (v : String) : FilterVal :=
  if (number v).truthy then .n (number v) else filterStrVal v

/-- Split a character list at every space character, keeping empty
segments, as the JS split with a single-space separator does. -/
def splitSpace (l : List Char) : List (List Char) :=
  l.foldr
    (fun c acc =>
      if c = ' ' then [] :: acc
      else
        match acc with
        | [] => [[c]]
        | seg :: segs => (c :: seg) :: segs)
    [[]]

/-- Model of the filter-string destructuring of DynamoDB.query (dynamo.js
lines 190-192): split on spaces into field, criteria and the rest, the
rest re-joined with spaces into the value. -/
def filterParts (f : String) : String × String × String :=
  let parts := (splitSpace f.data).map String.mk
  (parts.getD 0 (""), parts.getD 1 (""), String.intercalate (" ") (parts.drop 2))

/-- The value DynamoDB.query places into the filter expression for one
filter string, for a given Number primitive. -/
def queryFilterValue (number : String → JSNum) (f : String) : FilterVal :=
  filterValue number (filterParts f).2.2

end Dyn

namespace Coll

/-- Values held in entity fields (DynamoCollection stores flat JS
objects of strings, numbers and booleans). -/
inductive JSVal where
  | vStr : String → JSVal
  | vNum : Int → JSVal
  | vBool : Bool → JSVal
deriving DecidableEq

/-- JS string coercion of a field value, as performed when a value is
spliced into a key template. -/
def JSVal.toStr : JSVal → String
  | .vStr s => s
  | .vNum n => toString n
  | .vBool b => if b then ("true") else ("false")

/-- A JS object modelled as an association list with first-match lookup. -/
abbrev Entity := List (String × JSVal)

/-- Property read on an object: the first entry with the key, if any. -/
def lookupE : Entity → String → Option JSVal
  | [], _ => none
  | (k2, v) :: rest, k => if k2 = k then some v else lookupE rest k

/-- Model of the JS object spread a-then-b: the entries of a with values
overridden by b where b has the key, followed by the entries of b whose
keys are new. -/
def mergeE (a b : Entity) : Entity :=
  a.map (fun kv => (kv.1, (lookupE b kv.1).getD kv.2)) ++
    b.filter (fun kv => (lookupE a kv.1).isNone)

/-- Opening brace character. -/
def braceL : Char := Char.ofNat 123

/-- Closing brace character. -/
def braceR : Char := Char.ofNat 125

/-- JS regex word-character class. -/
def isWord (c : Char) : Bool :=
  c.isAlphanum || c = '_'

/-- Scanner for the token regex of DynamoCollection.key (dynamo.js line
722): finds the non-overlapping brace-delimited words of the template
left to right.  The second argument holds the word characters read so
far (reversed) once an opening brace was seen; a mismatch restarts the
scan exactly where the regex engine would. -/
def tokGo : List Char → Option (List Char) → List String
  | [], _ => []
  | c :: rest, none =>
    if c = braceL then tokGo rest (some []) else tokGo rest none
  | c :: rest, some w =>
    if c = braceR then
      (if w.isEmpty then tokGo rest none else String.mk w.reverse :: tokGo rest none)
    else if isWord c then tokGo rest (some (c :: w))
    else if c = braceL then tokGo rest (some [])
    else tokGo rest none

/-- The placeholder field names of a key template, in match order. -/
def keyTokens (pattern : String) : List String :=
  tokGo pattern.data none

/-- Expansion of the dollar-replacement patterns that the JS string
replace applies to a string replacement value (GetSubstitution of the
language standard): a doubled dollar sign yields one dollar sign, a
dollar sign before an ampersand yields the matched text m, before a
backquote the part b of the subject string preceding the match, before a
straight quote the part a following it; any other dollar sign stands for
itself, and the scan continues at the next character (the token regex of
the key helper has no capture groups, so group references stay
literal). -/
def expandRepl (m b a : List Char) : List Char → List Char
  | [] => []
  | c :: r =>
    if c = '$' then
      match r with
      | [] => ['$']
      | c2 :: r2 =>
        if c2 = '$' then '$' :: expandRepl m b a r2
        else if c2 = '&' then m ++ expandRepl m b a r2
        else if c2 = Char.ofNat 96 then b ++ expandRepl m b a r2
        else if c2 = Char.ofNat 39 then a ++ expandRepl m b a r2
        else '$' :: expandRepl m b a (c2 :: r2)
    else c :: expandRepl m b a r

/-- Structural worker for replaceAll; the fuel argument is maintained
equal to the length of the remaining text, so the exhaustion branch is
never reached from replaceAll.  The before argument accumulates, in
reverse, the part of the subject string already scanned, which the
dollar-pattern expansion of a replacement may reference. -/
def replaceAllF (pat rep : List Char) : Nat → List Char → List Char → List Char
  | _, _, [] => []
  | 0, _, s => s
  | fuel + 1, before, c :: rest =>
    if pat ≠ [] ∧ pat <+: (c :: rest) then
      expandRepl pat before.reverse ((c :: rest).drop pat.length) rep ++
        replaceAllF pat rep fuel (pat.reverse ++ before) ((c :: rest).drop pat.length)
    else c :: replaceAllF pat rep fuel (c :: before) rest

/-- Replace every non-overlapping occurrence of pat in s by the
dollar-expanded rep, left to right, continuing after each replacement,
as the JS global string replace does. -/
def replaceAll (s pat rep : List Char) : List Char :=
  replaceAllF pat rep s.length [] s

/-- String coercion of a possibly absent field value: a missing field
reads as undefined, which JS stringifies to the text undefined inside
the replacement. -/
def optValToStr : Option JSVal → String
  | none => ("undefined")
  | some v => v.toStr

/-- Model of the private DynamoCollection.key helper (dynamo.js lines
717-738): for each template token in match order, globally replace its
braced occurrence in the evolving key with the string coercion of the
entity field's value. -/
def key (pattern : String) (data : Entity) : String :=
  String.mk ((keyTokens pattern).foldl
    (fun k tok =>
      replaceAll k (braceL :: (tok.data ++ [braceR])) (optValToStr (lookupE data tok)).data)
    pattern.data)

/-- Specification-side shape of a key template, for stating what key
resolution produces: a template is a sequence of parts, each either a
literal piece (inl) or a braced placeholder naming a field (inr). -/
def renderTemplate : List (String ⊕ String) → List Char
  | [] => []
  | .inl lit :: rest => lit.data ++ renderTemplate rest
  | .inr tok :: rest => braceL :: (tok.data ++ braceR :: renderTemplate rest)

/-- Specification-side direct substitution: the template with each
placeholder replaced by the string coercion of the entity field's
value. -/
def renderResolved (data : Entity) : List (String ⊕ String) → List Char
  | [] => []
  | .inl lit :: rest => lit.data ++ renderResolved data rest
  | .inr tok :: rest => (optValToStr (lookupE data tok)).data ++ renderResolved data rest

/-- The placeholder names of a parts list, in order. -/
def partTokens : List (String ⊕ String) → List String
  | [] => []
  | .inl _ :: rest => partTokens rest
  | .inr tok :: rest => tok :: partTokens rest

/-- Well-formedness of a parts list: literal pieces contain no opening
brace and placeholder names are nonempty words. -/
def partsOk (parts : List (String ⊕ String)) : Bool :=
  parts.all fun part =>
    match part with
    | .inl lit => lit.data.all (fun c => decide (c ≠ braceL))
    | .inr tok => !tok.data.isEmpty && tok.data.all isWord

/-- Substitute one placeholder name throughout a parts list. -/
def substTok (data : Entity) (t : String) (parts : List (String ⊕ String)) :
    List (String ⊕ String) :=
  parts.map fun part =>
    match part with
    | .inl lit => .inl lit
    | .inr u => if u = t then .inl (optValToStr (lookupE data u)) else .inr u

/-- Substitute a list of placeholder names in order. -/
def substToks (data : Entity) (ts : List String) (parts : List (String ⊕ String)) :
    List (String ⊕ String) :=
  ts.foldl (fun ps t => substTok data t ps) parts

/-- An access pattern after constructor validation (dynamo.js line 497):
key templates, optional projection list, optional inclusion predicate. -/
structure Pattern where
  pk : String
  sk : String
  fields : Option (List String) := none
  when : Option (Entity → Bool) := none

/-- The no-op-change pruning at the top of DynamoCollection.update
(dynamo.js lines 606-609): entries whose value deep-equals the entity's
current value are removed from the change set. -/
def pruneChanges (data changes : Entity) : Entity :=
  changes.filter (fun kv => decide (lookupE data kv.1 ≠ some kv.2))

/-- Drop the reserved physical key fields, as the deletes at the top of
DynamoDB.updateExpression do (dynamo.js lines 426-427). -/
def stripPkSk (o : Entity) : Entity :=
  o.filter (fun kv => decide (kv.1 ≠ ("pk") ∧ kv.1 ≠ ("sk")))

/-- The assembled update expression string of DynamoDB.updateExpression
(dynamo.js lines 434-444). -/
def updExprStr : Entity → String
  | [] => ("")
  | (k, _) :: rest =>
    rest.foldl (fun acc kv => acc ++ (", #") ++ kv.1 ++ (" = :") ++ kv.1)
      (("set #") ++ k ++ (" = :") ++ k)

/-- Result of DynamoDB.updateExpression: expression text, attribute
names and attribute values. -/
structure UpdFields where
  expr : String
  names : List (String × String)
  values : List (String × JSVal)
deriving DecidableEq

/-- Model of DynamoDB.updateExpression (dynamo.js lines 424-451): the
reserved pk and sk fields are deleted from the object first, then the
expression pieces are built from the remaining entries. -/
def updateExpression (object : Entity) : UpdFields :=
  ⟨updExprStr (stripPkSk object),
   (stripPkSk object).map (fun kv => (("#") ++ kv.1, kv.1)),
   (stripPkSk object).map (fun kv => ((":") ++ kv.1, kv.2))⟩

/-- A store operation emitted by the collection: a put carrying the full
item, a delete carrying the key pair, or an in-place update carrying the
key pair and the update expression. -/
inductive Op where
  | put : Entity → Op
  | del : String × String → Op
  | upd : String × String → UpdFields → Op
deriving DecidableEq

/-- The key pair resolved from the original entity (dynamo.js lines
663-666). -/
def prevKeyOf (p : Pattern) (data : Entity) : String × String :=
  (key p.pk data, key p.sk data)

/-- The key pair resolved from the entity merged with the change set
(dynamo.js lines 669-672). -/
def currKeyOf (p : Pattern) (data changes : Entity) : String × String :=
  (key p.pk (mergeE data changes), key p.sk (mergeE data changes))

/-- The merged, projected item body of the update loop (dynamo.js lines
624-640): with a projection list, each projected field takes the changed
value when present and the current value otherwise; without one, the
whole merged entity. -/
def currOf (p : Pattern) (data changes : Entity) : Entity :=
  match p.fields with
  | some fs =>
    fs.filterMap (fun f =>
      ((lookupE changes f).orElse (fun _ => lookupE data f)).map (fun v => (f, v)))
  | none => mergeE data changes

/-- The projected slice of the change set for one pattern (dynamo.js
lines 629-631, 639). -/
def currChangesOf (p : Pattern) (data changes : Entity) : Entity :=
  match p.fields with
  | some fs => fs.filterMap (fun f => (lookupE changes f).map (fun v => (f, v)))
  | none => changes

/-- The item written by the key-migration put (dynamo.js line 686): the
projected body spread-overridden by the new key pair. -/
def migratedItem (p : Pattern) (data changes : Entity) : Entity :=
  mergeE (currOf p data changes)
    [(("pk"), JSVal.vStr (currKeyOf p data changes).1),
     (("sk"), JSVal.vStr (currKeyOf p data changes).2)]

/-- The key-comparison tail of the update loop (dynamo.js lines 662-700):
a changed key pair emits delete-old then put-new; otherwise a nonempty
projected change slice emits one in-place update, whose expression
assembly deletes the reserved pk and sk fields from the (aliased) change
object, reflected in the returned change-set state; otherwise nothing. -/
def mainOps (data changes : Entity) (p : Pattern) : List Op × Entity :=
  if (prevKeyOf p data).1 ≠ (currKeyOf p data changes).1 ∨
      (prevKeyOf p data).2 ≠ (currKeyOf p data changes).2 then
    ([.del (prevKeyOf p data), .put (migratedItem p data changes)], changes)
  else if currChangesOf p data changes ≠ [] then
    ([.upd (currKeyOf p data changes) (updateExpression (currChangesOf p data changes))],
     match p.fields with
     | none => stripPkSk changes
     | some _ => changes)
  else ([], changes)

/-- One iteration of the update loop over the access patterns (dynamo.js
lines 615-701): the ops pushed for the pattern and the change-set state
after the iteration. -/
def patternOps (data changes : Entity) (p : Pattern) : List Op × Entity :=
  match p.when with
  | some w =>
    if w data && !w (mergeE data changes) then ([.del (prevKeyOf p data)], changes)
    else if !w (mergeE data changes) then ([], changes)
    else mainOps data changes p
  | none => mainOps data changes p

/-- The operations pushed over a pattern list, threading the change-set
state. -/
def updateGo (data : Entity) : List Pattern → Entity → List Op
  | [], _ => []
  | p :: ps, ch =>
    (patternOps data ch p).1 ++ updateGo data ps (patternOps data ch p).2

/-- The change-set state after processing a pattern list. -/
def updateGoState (data : Entity) : List Pattern → Entity → Entity
  | [], ch => ch
  | p :: ps, ch => updateGoState data ps (patternOps data ch p).2

/-- All operations DynamoCollection.update computes for its patterns:
the loop runs on the pruned change set. -/
def updateOps (ps : List Pattern) (data changes : Entity) : List Op :=
  updateGo data ps (pruneChanges data changes)

/-- Model of DynamoCollection.update (dynamo.js lines 601-715): the first
component is none when the combined operation list is empty (the source
returns without calling transactWrite) and otherwise the list handed to
transactWrite; the second component is the caller's change-set object
after the call's mutations. -/
def update (ps : List Pattern) (data changes : Entity) (extraOps : Option (List Op)) :
    Option (List Op) × Entity :=
  let pruned := pruneChanges data changes
  let ops := updateGo data ps pruned ++ extraOps.getD []
  (if ops = [] then none else some ops, updateGoState data ps pruned)

/-- A change set that avoids the reserved physical key field names. -/
def reservedFree (ch : Entity) : Bool :=
  ch.all (fun kv => decide (kv.1 ≠ ("pk") ∧ kv.1 ≠ ("sk")))

/-- Example profile access pattern (spec section 8's worked example). -/
def exPattern : Pattern :=
  { pk := "user#\x7bid\x7d", sk := ("profile"), fields := some [("name"), ("email")] }

/-- Example entity for the worked example. -/
def exData : Entity :=
  [(("id"), JSVal.vStr ("42")), (("name"), JSVal.vStr ("Ann")),
   (("email"), JSVal.vStr ("a@x.com")), (("age"), JSVal.vNum 30)]

/-- Example key-affecting change set. -/
def exChanges : Entity :=
  [(("id"), JSVal.vStr ("43"))]

/-- Example inclusion predicate: the entity's active flag is true. -/
def exWhen (e : Entity) : Bool :=
  lookupE e ("active") == some (JSVal.vBool true)

/-- Example predicated access pattern. -/
def exPatternW : Pattern :=
  { pk := "act#\x7bid\x7d", sk := ("a"), when := some exWhen }

/-- Example active entity. -/
def exDataW : Entity :=
  [(("id"), JSVal.vStr ("1")), (("active"), JSVal.vBool true)]

/-- Example deactivating change set. -/
def exChangesW : Entity :=
  [(("active"), JSVal.vBool false)]

end Coll

namespace Util

/-- Opening brace character. -/
def lbrace : Char := Char.ofNat 123

/-- Closing brace character. -/
def rbrace : Char := Char.ofNat 125

/-- A store-native continuation token: in this repository the scan and
query keys are flat objects of string fields (pk and sk), so a token is
modelled as a flat string-to-string object with its field order. -/
abbrev Token := List (String × String)

/-- UTF-8 encoding of one code point, as Buffer.from performs on a JS
string (the repository's strings hold scalar values). -/
def utf8EncodeChar (c : Char) : List Nat :=
  if c.toNat < 128 then [c.toNat]
  else if c.toNat < 2048 then [192 + c.toNat / 64, 128 + c.toNat % 64]
  else if c.toNat < 65536 then
    [224 + c.toNat / 4096, 128 + c.toNat / 64 % 64, 128 + c.toNat % 64]
  else
    [240 + c.toNat / 262144, 128 + c.toNat / 4096 % 64, 128 + c.toNat / 64 % 64,
      128 + c.toNat % 64]

/-- UTF-8 bytes of a string, modelling Buffer.from(data) in
base64Encode (util.js line 13). -/
def utf8Encode (s : String) : List Nat :=
  s.data.flatMap utf8EncodeChar

/-- Model of Buffer.toString with the ascii encoding (util.js line 18):
Node strips the high bit of every byte, then reads it as a one-byte
character. -/
def asciiDecode (bs : List Nat) : String :=
  String.mk (bs.map (fun b => Char.ofNat (b % 128)))

/-- The base64 alphabet in index order. -/
def b64chars : List Char :=
  ("ABCDEFGHIJKLMNOPQRSTUVWXYZabcdefghijklmnopqrstuvwxyz0123456789+/").data

/-- Character for a six-bit value. -/
def sextetChar (v : Nat) : Char :=
  b64chars.getD v ('A')

/-- Index of a character in the base64 alphabet, none for characters
outside it (including the padding sign), which Node's decoder skips. -/
def charSextetAux : List Char → Nat → Char → Option Nat
  | [], _, _ => none
  | a :: rest, i, c => if a = c then some i else charSextetAux rest (i + 1) c

/-- Six-bit value of a base64 alphabet character. -/
def charSextet (c : Char) : Option Nat :=
  charSextetAux b64chars 0 c

/-- Base64 encoding of a byte list in three-byte groups with padding,
as Buffer.toString with the base64 encoding produces. -/
def encB64 : List Nat → List Char
  | [] => []
  | [b1] => [sextetChar (b1 / 4), sextetChar (b1 % 4 * 16), '=', '=']
  | [b1, b2] => [sextetChar (b1 / 4), sextetChar (b1 % 4 * 16 + b2 / 16),
      sextetChar (b2 % 16 * 4), '=']
  | b1 :: b2 :: b3 :: rest =>
    sextetChar (b1 / 4) :: sextetChar (b1 % 4 * 16 + b2 / 16) ::
      sextetChar (b2 % 16 * 4 + b3 / 64) :: sextetChar (b3 % 64) :: encB64 rest

/-- Model of base64Encode (util.js lines 12-14) applied to bytes. -/
def base64Encode (bs : List Nat) : String :=
  String.mk (encB64 bs)

/-- Decode a list of six-bit values into bytes, dropping a trailing
lone sextet as Node does. -/
def decSextets : List Nat → List Nat
  | s1 :: s2 :: s3 :: s4 :: rest =>
    (s1 * 4 + s2 / 16) :: (s2 % 16 * 16 + s3 / 4) :: (s3 % 4 * 64 + s4) :: decSextets rest
  | [s1, s2] => [s1 * 4 + s2 / 16]
  | [s1, s2, s3] => [s1 * 4 + s2 / 16, s2 % 16 * 16 + s3 / 4]
  | _ => []

/-- Model of the byte level of Buffer.from(data, 'base64') (util.js line
18): characters outside the alphabet (padding included) are ignored and
complete six-bit groups are decoded. -/
def base64DecodeBytes (s : String) : List Nat :=
  decSextets (s.data.filterMap charSextet)

/-- Lowercase hex digit, as JSON.stringify uses in escape sequences. -/
def hexDigit (n : Nat) : Char :=
  ("0123456789abcdef").data.getD n ('0')

/-- JSON string escaping of one character, as JSON.stringify performs:
quote and backslash are escaped, control characters use the named or
unicode escapes, all other characters are kept literally. -/
def escapeChar (c : Char) : List Char :=
  if c = '"' then ['\\', '"']
  else if c = '\\' then ['\\', '\\']
  else if c = Char.ofNat 8 then ['\\', 'b']
  else if c = Char.ofNat 9 then ['\\', 't']
  else if c = Char.ofNat 10 then ['\\', 'n']
  else if c = Char.ofNat 12 then ['\\', 'f']
  else if c = Char.ofNat 13 then ['\\', 'r']
  else if c.toNat < 32 then
    ['\\', 'u', '0', '0', hexDigit (c.toNat / 16), hexDigit (c.toNat % 16)]
  else [c]

/-- A JSON string literal: quoted, escaped content. -/
def escStr (s : String) : List Char :=
  '"' :: (s.data.flatMap escapeChar ++ ['"'])

/-- The characters of one key-value pair of the serialized token. -/
def pairChars (kv : String × String) : List Char :=
  escStr kv.1 ++ ':' :: escStr kv.2

/-- The comma-separated pair list of the serialized token. -/
def pairsChars : Token → List Char
  | [] => []
  | [kv] => pairChars kv
  | kv :: kv2 :: rest => pairChars kv ++ ',' :: pairsChars (kv2 :: rest)

/-- JSON.stringify of a token: the canonical whitespace-free object
serialization. -/
def jsonStringifyToken (t : Token) : String :=
  String.mk (lbrace :: (pairsChars t ++ [rbrace]))

/-- Value of a hex digit character. -/
def hexVal (c : Char) : Option Nat :=
  if ('0') ≤ c ∧ c ≤ ('9') then some (c.toNat - 48)
  else if ('a') ≤ c ∧ c ≤ ('f') then some (c.toNat - 87)
  else if ('A') ≤ c ∧ c ≤ ('F') then some (c.toNat - 55)
  else none

/-- State of the JSON string scanner: plain characters, after a
backslash, or inside a unicode escape with a count of digits left and
the accumulated value. -/
inductive PState where
  | norm : PState
  | esc : PState
  | hex : Nat → Nat → PState

/-- JSON string body scanner, one character per step: returns the
decoded content and the remainder after the closing quote. -/
def parseStr : List Char → List Char → PState → Option (List Char × List Char)
  | [], _, _ => none
  | c :: rest, acc, .norm =>
    if c = '"' then some (acc.reverse, rest)
    else if c = '\\' then parseStr rest acc .esc
    else parseStr rest (c :: acc) .norm
  | c :: rest, acc, .esc =>
    if c = '"' then parseStr rest ('"' :: acc) .norm
    else if c = '\\' then parseStr rest ('\\' :: acc) .norm
    else if c = '/' then parseStr rest ('/' :: acc) .norm
    else if c = 'b' then parseStr rest (Char.ofNat 8 :: acc) .norm
    else if c = 't' then parseStr rest (Char.ofNat 9 :: acc) .norm
    else if c = 'n' then parseStr rest (Char.ofNat 10 :: acc) .norm
    else if c = 'f' then parseStr rest (Char.ofNat 12 :: acc) .norm
    else if c = 'r' then parseStr rest (Char.ofNat 13 :: acc) .norm
    else if c = 'u' then parseStr rest acc (.hex 4 0)
    else none
  | c :: rest, acc, .hex (left + 1) a =>
    match hexVal c with
    | some d =>
      if left = 0 then parseStr rest (Char.ofNat (a * 16 + d) :: acc) .norm
      else parseStr rest acc (.hex left (a * 16 + d))
    | none => none
  | _ :: _, _, .hex 0 _ => none

/-- Pair-list parser with a recursion-depth fuel; the fuel is set to the
input length, which bounds the number of pairs. -/
def parsePairsF : Nat → List Char → Option Token
  | _, [] => none
  | 0, _ :: _ => none
  | fuel + 1, c :: rest =>
    if c = '"' then
      match parseStr rest [] .norm with
      | none => none
      | some (k, rest2) =>
        match rest2 with
        | ':' :: c2 :: rest3 =>
          if c2 = '"' then
            match parseStr rest3 [] .norm with
            | none => none
            | some (v, rest4) =>
              match rest4 with
              | c3 :: rest5 =>
                if c3 = ',' then
                  match parsePairsF fuel rest5 with
                  | none => none
                  | some t => some ((String.mk k, String.mk v) :: t)
                else if c3 = rbrace ∧ rest5 = [] then some [(String.mk k, String.mk v)]
                else none
              | [] => none
          else none
        | _ => none
    else none

/-- Model of JSON.parse on the canonical token serialization: accepts
exactly a flat object of string fields and rejects anything else, the
parse failure standing for the thrown syntax error. -/
def parseToken : List Char → Option Token
  | [] => none
  | c :: rest =>
    if c = lbrace then
      match rest with
      | [] => none
      | c2 :: rest2 =>
        if c2 = rbrace then (if rest2 = [] then some [] else none)
        else parsePairsF (c2 :: rest2).length (c2 :: rest2)
    else none

/-- Model of toCursor (util.js lines 22-24): base64 over the UTF-8 bytes
of the JSON serialization of the native token. -/
def toCursor (t : Token) : String :=
  base64Encode (utf8Encode (jsonStringifyToken t))

/-- Model of fromCursor (util.js lines 27-29): lenient base64 byte
decoding, ascii (high-bit-stripping) text decoding, then JSON parsing;
none models the thrown decoding error. -/
def fromCursor (s : String) : Option Token :=
  parseToken (asciiDecode (base64DecodeBytes s)).data

end Util

/-! ## Theorems -/

namespace Dyn

theorem chunkList_join {α : Type} (n : Nat) (h : n ≠ 0) :
    ∀ l : List α, (chunkList n l).flatten = l := by
  have main : ∀ (k : Nat) (l : List α), l.length ≤ k → (chunkList n l).flatten = l := by
    intro k
    induction k with
    | zero =>
      intro l hl
      have : l = [] := List.length_eq_zero.mp (Nat.le_zero.mp hl)
      subst this
      simp [chunkList]
    | succ k ih =>
      intro l hl
      cases l with
      | nil => simp [chunkList]
      | cons c rest =>
        unfold chunkList
        rw [dif_neg h]
        simp only [List.flatten_cons]
        rw [ih ((c :: rest).drop n) (by simp only [List.length_drop, List.length_cons] at hl ⊢; omega)]
        exact List.take_append_drop n (c :: rest)
  intro l
  exact main l.length l (Nat.le_refl _)

theorem chunkList_mem_length {α : Type} (n : Nat) :
    ∀ (l : List α) (part : List α), part ∈ chunkList n l → part.length ≤ n := by
  have main : ∀ (k : Nat) (l part : List α),
      l.length ≤ k → part ∈ chunkList n l → part.length ≤ n := by
    intro k
    induction k with
    | zero =>
      intro l part hl hp
      have : l = [] := List.length_eq_zero.mp (Nat.le_zero.mp hl)
      subst this
      simp [chunkList] at hp
    | succ k ih =>
      intro l part hl hp
      cases l with
      | nil => simp [chunkList] at hp
      | cons c rest =>
        unfold chunkList at hp
        by_cases hn : n = 0
        · rw [dif_pos hn] at hp
          simp at hp
        · rw [dif_neg hn] at hp
          rcases List.mem_cons.mp hp with h1 | h2
          · subst h1
            simpa using List.length_take_le n (c :: rest)
          · exact ih ((c :: rest).drop n) part (by simp only [List.length_drop, List.length_cons] at hl ⊢; omega) h2
  intro l part hp
  exact main l.length l part (Nat.le_refl _) hp

theorem chunkList_ne_nil {α : Type} (n : Nat) (h : n ≠ 0) (l : List α) (hl : l ≠ []) :
    chunkList n l ≠ [] := by
  cases l with
  | nil => exact absurd rfl hl
  | cons c rest =>
    unfold chunkList
    rw [dif_neg h]
    simp

theorem chunkList_two_le {α : Type} (n : Nat) (h : n ≠ 0) (l : List α)
    (hl : n < l.length) : 2 ≤ (chunkList n l).length := by
  cases l with
  | nil => simp at hl
  | cons c rest =>
    unfold chunkList
    rw [dif_neg h]
    have hdrop : (c :: rest).drop n ≠ [] := by
      intro hcon
      have h2 := congrArg List.length hcon
      simp only [List.length_drop, List.length_cons, List.length_nil] at h2
      simp only [List.length_cons] at hl
      omega
    have := chunkList_ne_nil n h ((c :: rest).drop n) hdrop
    cases hck : chunkList n ((c :: rest).drop n) with
    | nil => exact absurd hck this
    | cons a b => simp

theorem allOk_ok_iff (rs : List (Except DatabaseError Unit)) :
    allOk rs = .ok () ↔ ∀ r ∈ rs, r = .ok () := by
  induction rs with
  | nil => simp [allOk]
  | cons r rest ih =>
    cases r with
    | error e => simp [allOk]
    | ok u =>
      cases u
      simp [allOk, ih]

/-- Claim C6: over the transactional ceiling, transactWrite (and likewise
putBatch) splits the operation list into the same chunks, every underlying
atomic call holds at most the ceiling's number of operations, the chunks
cover every operation exactly once in order, and the combined call
succeeds exactly when every chunk call succeeds. -/
theorem transactWrite_chunking {α : Type} (limit : Nat) (ops : List α)
    (h0 : 0 < limit) (hover : limit < ops.length) :
    transactWriteCalls limit ops = chunkList limit ops ∧
    2 ≤ (transactWriteCalls limit ops).length ∧
    (∀ part ∈ transactWriteCalls limit ops, part.length ≤ limit) ∧
    (transactWriteCalls limit ops).flatten = ops ∧
    putBatchCalls limit ops = transactWriteCalls limit ops ∧
    (∀ store : List α → Nat → TOutcome,
      transactWrite limit ops store = .ok () ↔
        ∀ part ∈ transactWriteCalls limit ops, retryAux (store part) 0 = .ok ()) := by
  have hne : limit ≠ 0 := Nat.pos_iff_ne_zero.mp h0
  have hcalls : transactWriteCalls limit ops = chunkList limit ops := by
    unfold transactWriteCalls
    rw [if_pos hover]
  refine ⟨hcalls, ?_, ?_, ?_, ?_, ?_⟩
  · rw [hcalls]
    exact chunkList_two_le limit hne ops hover
  · rw [hcalls]
    exact fun part hp => chunkList_mem_length limit ops part hp
  · rw [hcalls]
    exact chunkList_join limit hne ops
  · unfold putBatchCalls
    rw [if_pos hover, hcalls]
  · intro store
    unfold transactWrite
    rw [if_pos hover, hcalls]
    rw [allOk_ok_iff]
    constructor
    · intro h part hp
      exact h (retryAux (store part) 0) (List.mem_map_of_mem _ hp)
    · intro h r hr
      obtain ⟨part, hp, hre⟩ := List.mem_map.mp hr
      rw [← hre]
      exact h part hp

/-- Witness for transactWrite_chunking at limit 2 and five operations. -/
theorem transactWrite_chunking_case :
    (transactWriteCalls 2 ([1, 2, 3, 4, 5] : List Nat)).flatten = [1, 2, 3, 4, 5] ∧
    (∀ part ∈ transactWriteCalls 2 ([1, 2, 3, 4, 5] : List Nat), part.length ≤ 2) := by
  have h := transactWrite_chunking 2 ([1, 2, 3, 4, 5] : List Nat) (by decide) (by decide)
  exact ⟨h.2.2.2.1, h.2.2.1⟩

theorem retryAux_ok (store : Nat → TOutcome) (N : Nat) (hN20 : N ≤ 20)
    (hok : store N = .ok) :
    ∀ d j, N - j ≤ d → j < N →
      (∀ i, j < i → i < N → ∃ m, store i = .err m ∧ isConflict m = true) →
      retryAux store j = .ok () := by
  intro d
  induction d with
  | zero => intro j hd hj _; omega
  | succ d ih =>
    intro j hd hj hconf
    unfold retryAux
    rw [dif_neg (by omega : ¬ j + 1 > 20)]
    by_cases hcase : j + 1 = N
    · rw [hcase, hok]
    · obtain ⟨m, hm, hc⟩ := hconf (j + 1) (by omega) (by omega)
      rw [hm]
      simp only [hc, if_true]
      exact ih (j + 1) (by omega) (by omega) (fun i h1 h2 => hconf i (by omega) h2)

theorem retryAux_exhausted (store : Nat → TOutcome) :
    ∀ d j, 20 - j ≤ d →
      (∀ i, j < i → i ≤ 20 → ∃ m, store i = .err m ∧ isConflict m = true) →
      retryAux store j = .error (dbError ("Max attempts retrying TransactionConflict")) := by
  intro d
  induction d with
  | zero =>
    intro j hd _
    unfold retryAux
    rw [dif_pos (by omega : j + 1 > 20)]
  | succ d ih =>
    intro j hd hconf
    by_cases hj : j + 1 > 20
    · unfold retryAux
      rw [dif_pos hj]
    · unfold retryAux
      rw [dif_neg hj]
      obtain ⟨m, hm, hc⟩ := hconf (j + 1) (by omega) (by omega)
      rw [hm]
      simp only [hc, if_true]
      exact ih (j + 1) (by omega) (fun i h1 h2 => hconf i (by omega) h2)

theorem retryAux_fatal (store : Nat → TOutcome) (k : Nat) (m : String)
    (hk20 : k ≤ 20) (hm : store k = .err m) (hc : isConflict m = false) :
    ∀ d j, k - j ≤ d → j < k →
      (∀ i, j < i → i < k → ∃ m2, store i = .err m2 ∧ isConflict m2 = true) →
      retryAux store j = .error (dbError m) := by
  intro d
  induction d with
  | zero => intro j hd hj _; omega
  | succ d ih =>
    intro j hd hj hconf
    unfold retryAux
    rw [dif_neg (by omega : ¬ j + 1 > 20)]
    by_cases hcase : j + 1 = k
    · rw [hcase, hm]
      simp [hc]
    · obtain ⟨m2, hm2, hc2⟩ := hconf (j + 1) (by omega) (by omega)
      rw [hm2]
      simp only [hc2, if_true]
      exact ih (j + 1) (by omega) (by omega) (fun i h1 h2 => hconf i (by omega) h2)

/-- Claim C5: for a batch at or under the ceiling, if the store reports a
transactional conflict on the first N-1 attempts and succeeds on attempt
N, transactWrite succeeds when N is at most 20 and raises the fatal
max-attempts DatabaseError when N exceeds 20; a non-conflict failure is
raised immediately at the attempt where it occurs. -/
theorem transactWrite_retry_policy {α : Type} (limit : Nat) (ops : List α)
    (hlen : ops.length ≤ limit) :
    (∀ (store : List α → Nat → TOutcome) (N : Nat), 1 ≤ N →
      (∀ i, 1 ≤ i → i < N → ∃ m, store ops i = .err m ∧ isConflict m = true) →
      store ops N = .ok →
      ((N ≤ 20 → transactWrite limit ops store = .ok ()) ∧
       (20 < N → transactWrite limit ops store =
         .error (dbError ("Max attempts retrying TransactionConflict"))))) ∧
    (∀ (store : List α → Nat → TOutcome) (k : Nat) (m : String), 1 ≤ k → k ≤ 20 →
      (∀ i, 1 ≤ i → i < k → ∃ m2, store ops i = .err m2 ∧ isConflict m2 = true) →
      store ops k = .err m → isConflict m = false →
      transactWrite limit ops store = .error (dbError m)) := by
  have hbase : ∀ store : List α → Nat → TOutcome,
      transactWrite limit ops store = retryAux (store ops) 0 := by
    intro store
    unfold transactWrite
    rw [if_neg (by omega : ¬ ops.length > limit)]
  constructor
  · intro store N hN1 hconf hok
    constructor
    · intro hN20
      rw [hbase]
      exact retryAux_ok (store ops) N hN20 hok N 0 (by omega) (by omega)
        (fun i h1 h2 => hconf i (by omega) h2)
    · intro hNbig
      rw [hbase]
      exact retryAux_exhausted (store ops) 20 0 (by omega)
        (fun i h1 h2 => hconf i (by omega) (by omega))
  · intro store k m hk1 hk20 hconf hm hc
    rw [hbase]
    exact retryAux_fatal (store ops) k m hk20 hm hc k 0 (by omega) (by omega)
      (fun i h1 h2 => hconf i (by omega) h2)

/-- Witness for transactWrite_retry_policy: a store that conflicts on the
first two attempts and succeeds on the third makes the call succeed, and
a store that fails with a non-conflict error on the first attempt is
raised immediately. -/
theorem transactWrite_retry_policy_case :
    transactWrite 25 ([1] : List Nat)
      (fun _ i => if i < 3 then .err ("TransactionConflict here") else .ok) = .ok () ∧
    transactWrite 25 ([1] : List Nat)
      (fun _ _ => .err ("ValidationException")) =
        .error (dbError ("ValidationException")) := by
  constructor
  · exact ((transactWrite_retry_policy 25 ([1] : List Nat) (by decide)).1
      (fun _ i => if i < 3 then .err ("TransactionConflict here") else .ok) 3
      (by decide)
      (by
        intro i h1 h2
        refine ⟨("TransactionConflict here"), ?_, by decide⟩
        simp only [if_pos h2])
      (by simp)).1 (by decide)
  · exact (transactWrite_retry_policy 25 ([1] : List Nat) (by decide)).2
      (fun _ _ => .err ("ValidationException")) 1 ("ValidationException")
      (by decide) (by decide) (by intro i h1 h2; omega) rfl (by decide)

/-- Claim C9: partition always lands in the half-open bucket range, is the
modular reduction of the big-endian combination of four digest character
codes, that combination fits in an unsigned 32-bit integer, and the
bucket depends only on the digest of the key, hence is stable across
processes. -/
theorem partition_bucket (hex : String → String) (k : String) (p : Nat) (hp : 0 < p) :
    partition hex k p < p ∧
    partition hex k p =
      hashValueHash ((digestCodes hex k).getD 3 0) ((digestCodes hex k).getD 2 0)
        ((digestCodes hex k).getD 1 0) ((digestCodes hex k).getD 0 0) % p ∧
    (∀ a b c d, hashValueHash a b c d < 2 ^ 32) ∧
    (∀ (hex2 : String → String) (k2 : String),
      hex k = hex2 k2 → partition hex k p = partition hex2 k2 p) := by
  refine ⟨Nat.mod_lt _ hp, rfl, ?_, ?_⟩
  · intro a b c d
    exact Nat.mod_lt _ (by norm_num)
  · intro hex2 k2 hsame
    unfold partition digestCodes
    rw [hsame]

/-- Witness for partition_bucket with the sha1 digest of the empty string
as the modelled hex primitive. -/
theorem partition_bucket_case :
    partition (fun _ => ("da39a3ee5e6b4b0d3255bfef95601890afd80709")) ("user#42") 10 < 10 := by
  exact (partition_bucket (fun _ => ("da39a3ee5e6b4b0d3255bfef95601890afd80709"))
    ("user#42") 10 (by decide)).1

/-- Counterexample for claim C8: the filter value text 0 converts to the
number 0 (the concrete instance agrees with the JS Number conversion
there), yet the code's truthiness test keeps it as the string 0 rather
than the number the claim requires. -/
theorem query_filter_zero_cex :
    queryFilterValue jsToNumber ("age = 0") = FilterVal.s ("0") ∧
    jsToNumber ("0") = JSNum.fin 0 ∧
    FilterVal.s ("0") ≠ FilterVal.n (JSNum.fin 0) := by
  refine ⟨by decide, by decide, by decide⟩

/-- Claim C8 as amended, for any Number primitive: the value placed into
the filter expression is the converted number whenever the conversion is
truthy (a nonzero finite value or an infinity); when it is falsy (NaN or
zero) the value becomes the boolean true or false if the text is that
literal, and stays the original string otherwise. -/
theorem query_filter_coercion (number : String → JSNum) (f field op value : String)
    (hparts : filterParts f = (field, op, value)) :
    (∀ q : ℚ, number value = .fin q → q ≠ 0 →
      queryFilterValue number f = .n (.fin q)) ∧
    (∀ sg : Bool, number value = .inf sg →
      queryFilterValue number f = .n (.inf sg)) ∧
    (number value = .nan → value = ("true") → queryFilterValue number f = .b true) ∧
    (number value = .nan → value = ("false") → queryFilterValue number f = .b false) ∧
    ((number value = .nan ∨ number value = .fin 0) → value ≠ ("true") →
      value ≠ ("false") → queryFilterValue number f = .s value) := by
  have hv : (filterParts f).2.2 = value := by rw [hparts]
  have hq : queryFilterValue number f = filterValue number value := by
    unfold queryFilterValue
    rw [hv]
  refine ⟨?_, ?_, ?_, ?_, ?_⟩
  · intro q hfin hq0
    rw [hq]
    unfold filterValue
    rw [hfin]
    simp [JSNum.truthy, hq0]
  · intro sg hinf
    rw [hq]
    unfold filterValue
    rw [hinf]
    simp [JSNum.truthy]
  · intro hnan ht
    subst ht
    rw [hq]
    unfold filterValue
    rw [hnan]
    simp [JSNum.truthy, filterStrVal]
  · intro hnan ht
    subst ht
    rw [hq]
    unfold filterValue
    rw [hnan]
    simp [JSNum.truthy, filterStrVal]
  · intro hfalsy h1 h2
    rw [hq]
    unfold filterValue
    rcases hfalsy with hnan | hzero
    · rw [hnan]
      simp only [JSNum.truthy, Bool.false_eq_true, if_false]
      unfold filterStrVal
      rw [if_neg h1, if_neg h2]
    · rw [hzero]
      simp only [JSNum.truthy]
      rw [if_neg (by simp)]
      unfold filterStrVal
      rw [if_neg h1, if_neg h2]

/-- Witness for query_filter_coercion on a numeric, a boolean and a plain
string filter, using the concrete decimal instance of the Number
primitive. -/
theorem query_filter_coercion_case :
    queryFilterValue jsToNumber ("age > 30") = FilterVal.n (JSNum.fin 30) ∧
    queryFilterValue jsToNumber ("active = true") = FilterVal.b true ∧
    queryFilterValue jsToNumber ("status = open") = FilterVal.s ("open") := by
  refine ⟨?_, ?_, ?_⟩
  · exact (query_filter_coercion jsToNumber ("age > 30") ("age") (">") ("30")
      (by decide)).1 30 (by decide) (by decide)
  · exact (query_filter_coercion jsToNumber ("active = true") ("active") ("=") ("true")
      (by decide)).2.2.1 (by decide) rfl
  · exact (query_filter_coercion jsToNumber ("status = open") ("status") ("=") ("open")
      (by decide)).2.2.2.2 (Or.inl (by decide)) (by decide) (by decide)

end Dyn


namespace Coll

theorem mergeE_nil (a : Entity) : mergeE a [] = a := by
  unfold mergeE
  simp [lookupE]

theorem lookupE_nil (k : String) : lookupE [] k = none := rfl

theorem lookupE_cons (k2 : String) (v : JSVal) (rest : Entity) (k : String) :
    lookupE ((k2, v) :: rest) k = if k2 = k then some v else lookupE rest k := rfl

theorem lookupE_append (l1 l2 : Entity) (k : String) :
    lookupE (l1 ++ l2) k = (lookupE l1 k).or (lookupE l2 k) := by
  induction l1 with
  | nil => simp [lookupE, Option.or]
  | cons hd tl ih =>
    obtain ⟨k2, v⟩ := hd
    by_cases hk : k2 = k
    · simp [lookupE, hk, Option.or]
    · simp [lookupE, hk, ih]

theorem lookupE_filter_congr (b : Entity) (k : String) (p q : String × JSVal → Bool)
    (h : ∀ v, p (k, v) = q (k, v)) :
    lookupE (b.filter p) k = lookupE (b.filter q) k := by
  induction b with
  | nil => rfl
  | cons hd tl ih =>
    obtain ⟨k3, v3⟩ := hd
    by_cases hk : k3 = k
    · subst hk
      rw [List.filter_cons, List.filter_cons, h v3]
      cases hq : q (k3, v3)
      · simpa using ih
      · simp [lookupE]
    · rw [List.filter_cons, List.filter_cons]
      cases hp : p (k3, v3) <;> cases hq2 : q (k3, v3) <;>
        simp [lookupE, hk, ih]

theorem lookupE_mergeE (a b : Entity) (k : String) :
    lookupE (mergeE a b) k = (lookupE b k).or (lookupE a k) := by
  induction a with
  | nil =>
    have hfil : List.filter (fun kv => (lookupE ([] : Entity) kv.1).isNone) b = b :=
      List.filter_eq_self.mpr (fun x _ => rfl)
    unfold mergeE
    rw [List.map_nil, List.nil_append, hfil, lookupE_nil]
    cases lookupE b k <;> rfl
  | cons hd tl ih =>
    obtain ⟨k2, u⟩ := hd
    unfold mergeE
    rw [List.map_cons, List.cons_append, lookupE_cons]
    by_cases hk : k2 = k
    · subst hk
      rw [if_pos rfl, lookupE_cons, if_pos rfl]
      cases hb : lookupE b k2 <;> simp [Option.or, hb]
    · rw [if_neg hk, lookupE_cons, if_neg hk]
      rw [lookupE_append]
      have hcong : lookupE (List.filter (fun kv => (lookupE ((k2, u) :: tl) kv.1).isNone) b) k
          = lookupE (List.filter (fun kv => (lookupE tl kv.1).isNone) b) k :=
        lookupE_filter_congr b k _ _ (fun v => by
          show (lookupE ((k2, u) :: tl) k).isNone = (lookupE tl k).isNone
          rw [lookupE_cons, if_neg hk])
      rw [hcong]
      have ih2 := ih
      rw [mergeE, lookupE_append] at ih2
      exact ih2

theorem currChangesOf_nil (p : Pattern) (data : Entity) :
    currChangesOf p data [] = [] := by
  unfold currChangesOf
  cases hf : p.fields with
  | none => rfl
  | some fs => simp [lookupE]

theorem mainOps_nil_changes (data : Entity) (p : Pattern) :
    mainOps data [] p = ([], []) := by
  have hk : currKeyOf p data [] = prevKeyOf p data := by
    unfold currKeyOf prevKeyOf
    rw [mergeE_nil]
  unfold mainOps
  rw [hk, currChangesOf_nil]
  simp

theorem patternOps_nil_changes (data : Entity) (p : Pattern) :
    patternOps data [] p = ([], []) := by
  unfold patternOps
  cases hw : p.when with
  | none => exact mainOps_nil_changes data p
  | some w =>
    rw [mergeE_nil]
    by_cases hwd : w data = true
    · simp [hwd, mainOps_nil_changes data p]
    · have hfalse : w data = false := by
        cases h2 : w data
        · rfl
        · exact absurd h2 hwd
      simp [hfalse]

theorem stripPkSk_of_reservedFree (ch : Entity) (h : reservedFree ch = true) :
    stripPkSk ch = ch := by
  unfold stripPkSk
  rw [List.filter_eq_self]
  intro a ha
  unfold reservedFree at h
  rw [List.all_eq_true] at h
  exact h a ha

theorem reservedFree_prune (data ch : Entity) (h : reservedFree ch = true) :
    reservedFree (pruneChanges data ch) = true := by
  unfold reservedFree at h ⊢
  rw [List.all_eq_true] at h ⊢
  intro a ha
  exact h a (List.mem_of_mem_filter ha)

theorem mainOps_state_cases (data ch : Entity) (p : Pattern) :
    (mainOps data ch p).2 = ch ∨ (mainOps data ch p).2 = stripPkSk ch := by
  unfold mainOps
  split
  · left; rfl
  · split
    · cases hf : p.fields with
      | none => right; rfl
      | some fs => left; rfl
    · left; rfl

theorem patternOps_state_cases (data ch : Entity) (p : Pattern) :
    (patternOps data ch p).2 = ch ∨ (patternOps data ch p).2 = stripPkSk ch := by
  unfold patternOps
  cases hw : p.when with
  | none => exact mainOps_state_cases data ch p
  | some w =>
    cases h1 : (w data && !w (mergeE data ch)) with
    | true => left; simp [h1]
    | false =>
      cases h2 : (!w (mergeE data ch)) with
      | true =>
        left
        simp only [h1, h2]
        split <;> rfl
      | false => simpa [h1, h2] using mainOps_state_cases data ch p

theorem patternOps_state_of_reservedFree (data ch : Entity) (p : Pattern)
    (h : reservedFree ch = true) : (patternOps data ch p).2 = ch := by
  rcases patternOps_state_cases data ch p with h2 | h2
  · exact h2
  · rw [h2, stripPkSk_of_reservedFree ch h]

theorem updateGoState_subset (data : Entity) :
    ∀ (ps : List Pattern) (ch : Entity) (x : String × JSVal),
      x ∈ updateGoState data ps ch → x ∈ ch := by
  intro ps
  induction ps with
  | nil => intro ch x hx; exact hx
  | cons p ps ih =>
    intro ch x hx
    simp only [updateGoState] at hx
    have h2 := ih _ x hx
    rcases patternOps_state_cases data ch p with h3 | h3
    · rwa [h3] at h2
    · rw [h3] at h2
      exact List.mem_of_mem_filter h2

theorem updateGo_append (data : Entity) (ps₁ ps₂ : List Pattern) (ch : Entity)
    (h : reservedFree ch = true) :
    updateGo data (ps₁ ++ ps₂) ch = updateGo data ps₁ ch ++ updateGo data ps₂ ch := by
  induction ps₁ with
  | nil => simp [updateGo]
  | cons p ps ih =>
    simp only [List.cons_append, updateGo, List.append_eq]
    rw [patternOps_state_of_reservedFree data ch p h, ih]
    simp [List.append_assoc]

theorem patternOps_migration (data ch : Entity) (p : Pattern)
    (hwhen : ∀ w, p.when = some w → w (mergeE data ch) = true)
    (hkey : prevKeyOf p data ≠ currKeyOf p data ch) :
    patternOps data ch p =
      ([.del (prevKeyOf p data), .put (migratedItem p data ch)], ch) := by
  have hk : (prevKeyOf p data).1 ≠ (currKeyOf p data ch).1 ∨
      (prevKeyOf p data).2 ≠ (currKeyOf p data ch).2 := by
    by_contra hcon
    push_neg at hcon
    exact hkey (Prod.ext_iff.mpr ⟨hcon.1, hcon.2⟩)
  have hmain : mainOps data ch p =
      ([.del (prevKeyOf p data), .put (migratedItem p data ch)], ch) := by
    unfold mainOps
    rw [if_pos hk]
  unfold patternOps
  cases hw : p.when with
  | none => exact hmain
  | some w =>
    have hwt := hwhen w hw
    simp [hwt, hmain]

theorem patternOps_when_delete (data ch : Entity) (p : Pattern) (w : Entity → Bool)
    (hw : p.when = some w) (hwas : w data = true) (hnow : w (mergeE data ch) = false) :
    patternOps data ch p = ([.del (prevKeyOf p data)], ch) := by
  unfold patternOps
  rw [hw]
  simp [hwas, hnow]

/-- Claim C7: an update with an empty change set and no extra operations
computes no operations and returns the early-exit marker, so the store is
never contacted. -/
theorem update_empty_changes (ps : List Pattern) (data : Entity) :
    updateOps ps data [] = [] ∧ update ps data [] none = (none, []) := by
  have hgo : ∀ ps2 : List Pattern, updateGo data ps2 ([] : Entity) = [] := by
    intro ps2
    induction ps2 with
    | nil => rfl
    | cons p ps2 ih =>
      simp only [updateGo, patternOps_nil_changes, ih]
      rfl
  have hstate : ∀ ps2 : List Pattern, updateGoState data ps2 ([] : Entity) = [] := by
    intro ps2
    induction ps2 with
    | nil => rfl
    | cons p ps2 ih =>
      simp only [updateGoState, patternOps_nil_changes, ih]
  have hprune : pruneChanges data [] = [] := rfl
  constructor
  · unfold updateOps
    rw [hprune, hgo ps]
  · unfold update
    simp [hprune, hgo, hstate]

/-- Claim C10: the pruning at the top of update deletes from the caller's
change set exactly the entries that deep-equal the entity's current value,
the operations are computed from the pruned change set, and after the call
the change-set object only contains genuinely changed fields. -/
theorem update_prunes_changes (ps : List Pattern) (data changes : Entity)
    (extraOps : Option (List Op)) :
    (∀ k v, (k, v) ∈ pruneChanges data changes ↔
      ((k, v) ∈ changes ∧ lookupE data k ≠ some v)) ∧
    updateOps ps data changes = updateGo data ps (pruneChanges data changes) ∧
    (∀ k v, (k, v) ∈ (update ps data changes extraOps).2 →
      ((k, v) ∈ changes ∧ lookupE data k ≠ some v)) := by
  have hmem : ∀ k v, (k, v) ∈ pruneChanges data changes ↔
      ((k, v) ∈ changes ∧ lookupE data k ≠ some v) := by
    intro k v
    unfold pruneChanges
    rw [List.mem_filter]
    simp
  refine ⟨hmem, rfl, ?_⟩
  intro k v hx
  have hsub : (k, v) ∈ pruneChanges data changes :=
    updateGoState_subset data ps (pruneChanges data changes) (k, v) hx
  exact (hmem k v).mp hsub

/-- Witness for update_prunes_changes: after an update whose change set
repeats one current value and changes another field, the surviving entry
is a genuine change. -/
theorem update_prunes_changes_case :
    (("b"), JSVal.vStr ("z")) ∈
      ([(("a"), JSVal.vStr ("x")), (("b"), JSVal.vStr ("z"))] : Entity) ∧
    lookupE [(("a"), JSVal.vStr ("x")), (("b"), JSVal.vStr ("y"))] ("b") ≠
      some (JSVal.vStr ("z")) := by
  exact (update_prunes_changes [exPattern]
    [(("a"), JSVal.vStr ("x")), (("b"), JSVal.vStr ("y"))]
    [(("a"), JSVal.vStr ("x")), (("b"), JSVal.vStr ("z"))] none).2.2
    ("b") (JSVal.vStr ("z")) (by decide)

/-- Claim C1: when a pattern's predicate (if any) accepts the merged
entity and a resolved key string changes, update emits for that pattern
exactly a delete at the previous keys followed by a put whose item is the
merged, projected body carrying the new keys, and no in-place update. -/
theorem update_key_migration (ps₁ ps₂ : List Pattern) (p : Pattern)
    (data changes : Entity)
    (hres : reservedFree changes = true)
    (hwhen : ∀ w, p.when = some w →
      w (mergeE data (pruneChanges data changes)) = true)
    (hkey : prevKeyOf p data ≠ currKeyOf p data (pruneChanges data changes)) :
    updateOps (ps₁ ++ p :: ps₂) data changes =
      updateOps ps₁ data changes ++
        Op.del (prevKeyOf p data) ::
          Op.put (migratedItem p data (pruneChanges data changes)) ::
            updateOps ps₂ data changes ∧
    lookupE (migratedItem p data (pruneChanges data changes)) ("pk") =
      some (JSVal.vStr (currKeyOf p data (pruneChanges data changes)).1) ∧
    lookupE (migratedItem p data (pruneChanges data changes)) ("sk") =
      some (JSVal.vStr (currKeyOf p data (pruneChanges data changes)).2) ∧
    (∀ kf fl, Op.upd kf fl ≠ (Op.del (prevKeyOf p data) : Op) ∧
      Op.upd kf fl ≠
        (Op.put (migratedItem p data (pruneChanges data changes)) : Op)) := by
  have hres' : reservedFree (pruneChanges data changes) = true :=
    reservedFree_prune data changes hres
  have hslice := patternOps_migration data (pruneChanges data changes) p hwhen hkey
  refine ⟨?_, ?_, ?_, ?_⟩
  · unfold updateOps
    rw [updateGo_append data ps₁ (p :: ps₂) (pruneChanges data changes) hres']
    simp only [updateGo, hslice]
    rfl
  · unfold migratedItem
    rw [lookupE_mergeE]
    rfl
  · unfold migratedItem
    rw [lookupE_mergeE]
    rfl
  · intro kf fl
    exact ⟨fun h => Op.noConfusion h, fun h => Op.noConfusion h⟩

/-- Witness for update_key_migration: changing the id field of the worked
example migrates the item from user#42 to user#43 with a delete followed
by a put. -/
theorem update_key_migration_case :
    updateOps ([] ++ exPattern :: []) exData exChanges =
      updateOps [] exData exChanges ++
        Op.del (prevKeyOf exPattern exData) ::
          Op.put (migratedItem exPattern exData (pruneChanges exData exChanges)) ::
            updateOps [] exData exChanges := by
  exact (update_key_migration [] [] exPattern exData exChanges (by decide)
    (by intro w hw; exact Option.noConfusion hw) (by decide)).1

/-- Claim C2: when a pattern's predicate accepts the original entity but
rejects the merged entity, update emits for that pattern exactly one
delete keyed from the original entity, and neither a put nor an in-place
update. -/
theorem update_predicate_transition (ps₁ ps₂ : List Pattern) (p : Pattern)
    (data changes : Entity) (w : Entity → Bool)
    (hres : reservedFree changes = true)
    (hw : p.when = some w)
    (hwas : w data = true)
    (hnow : w (mergeE data (pruneChanges data changes)) = false) :
    updateOps (ps₁ ++ p :: ps₂) data changes =
      updateOps ps₁ data changes ++
        Op.del (prevKeyOf p data) :: updateOps ps₂ data changes ∧
    (∀ item, Op.put item ≠ (Op.del (prevKeyOf p data) : Op)) ∧
    (∀ kf fl, Op.upd kf fl ≠ (Op.del (prevKeyOf p data) : Op)) := by
  have hres' : reservedFree (pruneChanges data changes) = true :=
    reservedFree_prune data changes hres
  have hslice := patternOps_when_delete data (pruneChanges data changes) p w hw hwas hnow
  refine ⟨?_, ?_, ?_⟩
  · unfold updateOps
    rw [updateGo_append data ps₁ (p :: ps₂) (pruneChanges data changes) hres']
    simp only [updateGo, hslice]
    rfl
  · intro item
    exact fun h => Op.noConfusion h
  · intro kf fl
    exact fun h => Op.noConfusion h

/-- Witness for update_predicate_transition: deactivating the example
entity deletes the predicated pattern's item and nothing else. -/
theorem update_predicate_transition_case :
    updateOps ([] ++ exPatternW :: []) exDataW exChangesW =
      updateOps [] exDataW exChangesW ++
        Op.del (prevKeyOf exPatternW exDataW) :: updateOps [] exDataW exChangesW := by
  exact (update_predicate_transition [] [] exPatternW exDataW exChangesW exWhen
    (by decide) rfl (by decide) (by decide)).1

end Coll

namespace Coll

theorem expandRepl_literal (m b a : List Char) :
    ∀ (rep : List Char), (∀ c ∈ rep, c ≠ ('$' : Char)) → expandRepl m b a rep = rep := by
  intro rep
  induction rep with
  | nil => intro _; rfl
  | cons c r ih =>
    intro h
    show expandRepl m b a (c :: r) = c :: r
    unfold expandRepl
    rw [if_neg (h c (List.mem_cons_self c r))]
    rw [ih (fun c2 h2 => h c2 (List.mem_cons_of_mem c h2))]

theorem replaceAllF_fuel (pat rep : List Char) :
    ∀ (fuel1 : Nat) (s : List Char) (fuel2 : Nat) (before : List Char),
      s.length ≤ fuel1 → s.length ≤ fuel2 →
      replaceAllF pat rep fuel1 before s = replaceAllF pat rep fuel2 before s := by
  intro fuel1
  induction fuel1 with
  | zero =>
    intro s fuel2 before h1 h2
    have hs : s = [] := List.length_eq_zero.mp (Nat.le_zero.mp h1)
    subst hs
    cases fuel2 <;> rfl
  | succ f ih =>
    intro s fuel2 before h1 h2
    cases s with
    | nil => cases fuel2 <;> rfl
    | cons c rest =>
      cases fuel2 with
      | zero =>
        simp only [List.length_cons] at h2
        omega
      | succ f2 =>
        simp only [replaceAllF]
        simp only [List.length_cons] at h1 h2
        by_cases h : pat ≠ [] ∧ pat <+: (c :: rest)
        · rw [if_pos h, if_pos h]
          have hplen : 1 ≤ pat.length := List.length_pos.mpr h.1
          have hd1 : ((c :: rest).drop pat.length).length ≤ f := by
            simp only [List.length_drop, List.length_cons]
            omega
          have hd2 : ((c :: rest).drop pat.length).length ≤ f2 := by
            simp only [List.length_drop, List.length_cons]
            omega
          rw [ih _ f2 _ hd1 hd2]
        · rw [if_neg h, if_neg h]
          rw [ih rest f2 _ (by omega) (by omega)]

theorem replaceAllF_before (pat rep : List Char) (hrep : ∀ c ∈ rep, c ≠ ('$' : Char)) :
    ∀ (fuel : Nat) (s b1 b2 : List Char),
      replaceAllF pat rep fuel b1 s = replaceAllF pat rep fuel b2 s := by
  intro fuel
  induction fuel with
  | zero => intro s b1 b2; cases s <;> rfl
  | succ f ih =>
    intro s b1 b2
    cases s with
    | nil => rfl
    | cons c rest =>
      simp only [replaceAllF]
      by_cases h : pat ≠ [] ∧ pat <+: (c :: rest)
      · rw [if_pos h, if_pos h]
        rw [expandRepl_literal _ _ _ rep hrep, expandRepl_literal _ _ _ rep hrep]
        rw [ih _ (pat.reverse ++ b1) (pat.reverse ++ b2)]
      · rw [if_neg h, if_neg h]
        rw [ih rest (c :: b1) (c :: b2)]

theorem replaceAll_nil (pat rep : List Char) : replaceAll [] pat rep = [] := rfl

theorem replaceAll_cons (c : Char) (rest pat rep : List Char)
    (hrep : ∀ ch ∈ rep, ch ≠ ('$' : Char)) :
    replaceAll (c :: rest) pat rep =
      if pat ≠ [] ∧ pat <+: (c :: rest) then
        rep ++ replaceAll ((c :: rest).drop pat.length) pat rep
      else c :: replaceAll rest pat rep := by
  show replaceAllF pat rep (rest.length + 1) [] (c :: rest) = _
  simp only [replaceAllF]
  by_cases h : pat ≠ [] ∧ pat <+: (c :: rest)
  · rw [if_pos h, if_pos h]
    rw [expandRepl_literal _ _ _ rep hrep]
    rw [replaceAllF_before pat rep hrep rest.length ((c :: rest).drop pat.length)
      (pat.reverse ++ []) []]
    unfold replaceAll
    rw [replaceAllF_fuel pat rep rest.length _ _ []
      (by
        simp only [List.length_drop, List.length_cons]
        have := List.length_pos.mpr h.1
        omega)
      (Nat.le_refl _)]
  · rw [if_neg h, if_neg h]
    rw [replaceAllF_before pat rep hrep rest.length rest (c :: []) []]
    rfl

theorem replaceAll_skip (l s pt rep : List Char) (h : ∀ c ∈ l, c ≠ braceL)
    (hrep : ∀ ch ∈ rep, ch ≠ ('$' : Char)) :
    replaceAll (l ++ s) (braceL :: pt) rep = l ++ replaceAll s (braceL :: pt) rep := by
  induction l with
  | nil => rfl
  | cons c l2 ih =>
    rw [List.cons_append, replaceAll_cons _ _ _ _ hrep, if_neg,
      ih (fun c2 hc2 => h c2 (List.mem_cons_of_mem c hc2))]
    · rfl
    · intro hcon
      exact (h c (List.mem_cons_self c l2)) (List.cons_prefix_cons.mp hcon.2).1.symm

theorem isWord_ne_braceR (c : Char) (h : isWord c = true) : c ≠ braceR := by
  intro hc
  subst hc
  exact absurd h (by decide)

theorem isWord_ne_braceL (c : Char) (h : isWord c = true) : c ≠ braceL := by
  intro hc
  subst hc
  exact absurd h (by decide)

theorem token_not_prefix :
    ∀ (td ud z : List Char), td.all isWord = true → ud.all isWord = true → td ≠ ud →
      ¬ ((td ++ [braceR]) <+: (ud ++ braceR :: z)) := by
  intro td
  induction td with
  | nil =>
    intro ud z _ hu hne hp
    cases ud with
    | nil => exact hne rfl
    | cons u1 ud2 =>
      have heq := (List.cons_prefix_cons.mp hp).1
      have hu1 : isWord u1 = true := by
        simp only [List.all_cons, Bool.and_eq_true] at hu
        exact hu.1
      exact isWord_ne_braceR u1 hu1 heq.symm
  | cons t1 td2 ih =>
    intro ud z ht hu hne hp
    simp only [List.all_cons, Bool.and_eq_true] at ht
    cases ud with
    | nil =>
      have heq := (List.cons_prefix_cons.mp hp).1
      exact isWord_ne_braceR t1 ht.1 heq
    | cons u1 ud2 =>
      simp only [List.all_cons, Bool.and_eq_true] at hu
      rcases List.cons_prefix_cons.mp hp with ⟨heq, hp2⟩
      by_cases h12 : t1 = u1
      · subst h12
        refine ih ud2 z ht.2 hu.2 ?_ hp2
        intro hcon
        exact hne (by rw [hcon])
      · exact h12 heq

theorem strMk_data (s : String) : String.mk s.data = s := rfl

theorem tokGo_lit (l s : List Char) (h : ∀ c ∈ l, c ≠ braceL) :
    tokGo (l ++ s) none = tokGo s none := by
  induction l with
  | nil => rfl
  | cons c l2 ih =>
    show tokGo (c :: (l2 ++ s)) none = tokGo s none
    simp only [tokGo]
    rw [if_neg (h c (List.mem_cons_self c l2))]
    exact ih (fun c2 hc2 => h c2 (List.mem_cons_of_mem c hc2))

theorem tokGo_word (rest : List Char) :
    ∀ (tchars w : List Char), tchars.all isWord = true →
      (w ≠ [] ∨ tchars ≠ []) →
      tokGo (tchars ++ braceR :: rest) (some w) =
        String.mk (w.reverse ++ tchars) :: tokGo rest none := by
  intro tchars
  induction tchars with
  | nil =>
    intro w hall hne
    have hw : w ≠ [] := by
      rcases hne with h | h
      · exact h
      · exact absurd rfl h
    have hwe : w.isEmpty = false := by
      cases w with
      | nil => exact absurd rfl hw
      | cons a b => rfl
    show tokGo (braceR :: rest) (some w) = _
    simp only [tokGo, if_pos rfl, hwe]
    simp
  | cons c tc ih =>
    intro w hall hne
    simp only [List.all_cons, Bool.and_eq_true] at hall
    show tokGo (c :: (tc ++ braceR :: rest)) (some w) = _
    simp only [tokGo]
    rw [if_neg (isWord_ne_braceR c hall.1), if_pos hall.1]
    rw [ih (c :: w) hall.2 (Or.inl (by simp))]
    simp [List.reverse_cons, List.append_assoc]

end Coll

namespace Coll

theorem tokGo_render : ∀ (parts : List (String ⊕ String)), partsOk parts = true →
    tokGo (renderTemplate parts) none = partTokens parts := by
  intro parts
  induction parts with
  | nil => intro _; rfl
  | cons part rest ih =>
    intro hok
    simp only [partsOk, List.all_cons, Bool.and_eq_true] at hok
    cases part with
    | inl lit =>
      have hlit : ∀ c ∈ lit.data, c ≠ braceL := by
        have h2 := hok.1
        simp only [List.all_eq_true, decide_eq_true_eq] at h2
        exact h2
      show tokGo (lit.data ++ renderTemplate rest) none = partTokens rest
      rw [tokGo_lit _ _ hlit]
      exact ih hok.2
    | inr tok =>
      have htok := hok.1
      simp only [Bool.and_eq_true] at htok
      have hne : tok.data ≠ [] := by
        cases hd : tok.data with
        | nil =>
          rw [hd] at htok
          exact absurd htok.1 (by decide)
        | cons a b => simp
      show tokGo (braceL :: (tok.data ++ braceR :: renderTemplate rest)) none =
        tok :: partTokens rest
      simp only [tokGo, if_pos rfl]
      rw [tokGo_word (renderTemplate rest) tok.data [] htok.2 (Or.inr hne)]
      rw [ih hok.2]
      simp [strMk_data]

theorem substTok_ok (data : Entity) (t : String) :
    ∀ (parts : List (String ⊕ String)), partsOk parts = true →
      (optValToStr (lookupE data t)).data.all (fun c => decide (c ≠ braceL)) = true →
      partsOk (substTok data t parts) = true := by
  intro parts
  induction parts with
  | nil => intro _ _; rfl
  | cons part rest ih =>
    intro hok hrep
    simp only [partsOk, List.all_cons, Bool.and_eq_true] at hok
    have ihr := ih hok.2 hrep
    simp only [substTok, List.map_cons, partsOk, List.all_cons, Bool.and_eq_true]
    refine ⟨?_, ?_⟩
    · cases part with
      | inl lit => exact hok.1
      | inr u =>
        by_cases hut : u = t
        · subst hut
          simp only [if_pos rfl]
          exact hrep
        · simp only [if_neg hut]
          exact hok.1
    · exact ihr

theorem all_nb_of_nbd (l : List Char)
    (h : l.all (fun c => decide (c ≠ braceL ∧ c ≠ ('$' : Char))) = true) :
    l.all (fun c => decide (c ≠ braceL)) = true := by
  simp only [List.all_eq_true, decide_eq_true_eq] at h ⊢
  exact fun c hc => (h c hc).1

theorem nd_of_nbd (l : List Char)
    (h : l.all (fun c => decide (c ≠ braceL ∧ c ≠ ('$' : Char))) = true) :
    ∀ c ∈ l, c ≠ ('$' : Char) := by
  simp only [List.all_eq_true, decide_eq_true_eq] at h
  exact fun c hc => (h c hc).2

theorem replaceAll_render (data : Entity) (t : String)
    (ht : t.data.all isWord = true) :
    ∀ (parts : List (String ⊕ String)), partsOk parts = true →
      (optValToStr (lookupE data t)).data.all
        (fun c => decide (c ≠ braceL ∧ c ≠ ('$' : Char))) = true →
      replaceAll (renderTemplate parts) (braceL :: (t.data ++ [braceR]))
          (optValToStr (lookupE data t)).data =
        renderTemplate (substTok data t parts) := by
  intro parts
  induction parts with
  | nil => intro _ _; rfl
  | cons part rest ih =>
    intro hok hrep
    have hd := nd_of_nbd _ hrep
    simp only [partsOk, List.all_cons, Bool.and_eq_true] at hok
    have ihr := ih hok.2 hrep
    cases part with
    | inl lit =>
      have hlit : ∀ c ∈ lit.data, c ≠ braceL := by
        have h2 := hok.1
        simp only [List.all_eq_true, decide_eq_true_eq] at h2
        exact h2
      show replaceAll (lit.data ++ renderTemplate rest) _ _ =
        lit.data ++ renderTemplate (substTok data t rest)
      rw [replaceAll_skip _ _ _ _ hlit hd, ihr]
    | inr u =>
      have htok := hok.1
      simp only [Bool.and_eq_true] at htok
      by_cases hut : u = t
      · subst hut
        show replaceAll (braceL :: (u.data ++ braceR :: renderTemplate rest)) _ _ = _
        rw [replaceAll_cons _ _ _ _ hd, if_pos ?_]
        · have hdrop : (braceL :: (u.data ++ braceR :: renderTemplate rest)).drop
              (braceL :: (u.data ++ [braceR])).length = renderTemplate rest := by
            have hsplit : braceL :: (u.data ++ braceR :: renderTemplate rest)
                = (braceL :: (u.data ++ [braceR])) ++ renderTemplate rest := by
              simp
            rw [hsplit, List.drop_left]
          rw [hdrop, ihr]
          simp only [substTok, List.map_cons, if_pos rfl, renderTemplate]
        · refine ⟨by simp, ?_⟩
          refine List.cons_prefix_cons.mpr ⟨rfl, ?_⟩
          rw [show u.data ++ braceR :: renderTemplate rest
            = (u.data ++ [braceR]) ++ renderTemplate rest by simp]
          exact List.prefix_append _ _
      · show replaceAll (braceL :: (u.data ++ braceR :: renderTemplate rest)) _ _ = _
        rw [replaceAll_cons _ _ _ _ hd, if_neg ?_]
        · have huw : ∀ c ∈ u.data, c ≠ braceL := by
            intro c hc
            refine isWord_ne_braceL c ?_
            have h2 := htok.2
            simp only [List.all_eq_true] at h2
            exact h2 c hc
          rw [replaceAll_skip _ _ _ _ huw hd]
          rw [replaceAll_cons braceR _ _ _ hd, if_neg ?_]
          · rw [ihr]
            simp only [substTok, List.map_cons, if_neg hut, renderTemplate]
          · intro hcon
            have h2 := (List.cons_prefix_cons.mp hcon.2).1
            exact absurd h2 (by decide)
        · intro hcon
          have hp2 := (List.cons_prefix_cons.mp hcon.2).2
          have hdt : t.data ≠ u.data := by
            intro hdd
            refine hut ?_
            have h3 := congrArg String.mk hdd
            rw [strMk_data, strMk_data] at h3
            exact h3.symm
          exact token_not_prefix t.data u.data (renderTemplate rest) ht htok.2 hdt hp2

theorem foldl_replace_render (data : Entity) :
    ∀ (ts : List String) (parts : List (String ⊕ String)),
      partsOk parts = true →
      (∀ t ∈ ts, t.data.all isWord = true) →
      (∀ t ∈ ts, (optValToStr (lookupE data t)).data.all
        (fun c => decide (c ≠ braceL ∧ c ≠ ('$' : Char))) = true) →
      List.foldl (fun k tok => replaceAll k (braceL :: (tok.data ++ [braceR]))
          (optValToStr (lookupE data tok)).data) (renderTemplate parts) ts =
        renderTemplate (substToks data ts parts) := by
  intro ts
  induction ts with
  | nil => intro parts _ _ _; rfl
  | cons t ts ih =>
    intro parts hok hws hreps
    show List.foldl _ (replaceAll (renderTemplate parts) (braceL :: (t.data ++ [braceR]))
      (optValToStr (lookupE data t)).data) ts = renderTemplate (substToks data (t :: ts) parts)
    rw [replaceAll_render data t (hws t (List.mem_cons_self _ _)) parts hok
      (hreps t (List.mem_cons_self _ _))]
    exact ih (substTok data t parts)
      (substTok_ok data t parts hok (all_nb_of_nbd _ (hreps t (List.mem_cons_self _ _))))
      (fun t2 h2 => hws t2 (List.mem_cons_of_mem _ h2))
      (fun t2 h2 => hreps t2 (List.mem_cons_of_mem _ h2))

theorem substToks_eq_map (data : Entity) :
    ∀ (ts : List String) (parts : List (String ⊕ String)),
      substToks data ts parts = parts.map (fun part =>
        match part with
        | .inl l => .inl l
        | .inr u => if u ∈ ts then .inl (optValToStr (lookupE data u)) else .inr u) := by
  intro ts
  induction ts with
  | nil =>
    intro parts
    show parts = _
    induction parts with
    | nil => rfl
    | cons part rest ihp =>
      rw [List.map_cons, ← ihp]
      cases part with
      | inl l => rfl
      | inr u => simp
  | cons t ts ih =>
    intro parts
    show substToks data ts (substTok data t parts) = _
    rw [ih (substTok data t parts)]
    unfold substTok
    rw [List.map_map]
    apply List.map_congr_left
    intro part hp
    simp only [Function.comp_apply]
    cases part with
    | inl l => rfl
    | inr u =>
      by_cases hut : u = t
      · subst hut
        simp [List.mem_cons]
      · simp [hut, List.mem_cons]

theorem mem_inr_partTokens : ∀ (parts : List (String ⊕ String)) (t : String),
    (Sum.inr t : String ⊕ String) ∈ parts → t ∈ partTokens parts := by
  intro parts
  induction parts with
  | nil => intro t ht; simp at ht
  | cons part rest ih =>
    intro t ht
    rcases List.mem_cons.mp ht with h | h
    · rw [← h]
      exact List.mem_cons_self _ _
    · cases part with
      | inl l => exact ih t h
      | inr u => exact List.mem_cons_of_mem _ (ih t h)

theorem partTokens_ok : ∀ (parts : List (String ⊕ String)), partsOk parts = true →
    ∀ t ∈ partTokens parts, t.data ≠ [] ∧ t.data.all isWord = true := by
  intro parts
  induction parts with
  | nil => intro _ t ht; simp [partTokens] at ht
  | cons part rest ih =>
    intro hok t ht
    simp only [partsOk, List.all_cons, Bool.and_eq_true] at hok
    cases part with
    | inl l => exact ih hok.2 t ht
    | inr u =>
      rcases List.mem_cons.mp ht with h | h
      · subst h
        have htok := hok.1
        simp only [Bool.and_eq_true] at htok
        refine ⟨?_, htok.2⟩
        cases hd : t.data with
        | nil =>
          rw [hd] at htok
          exact absurd htok.1 (by decide)
        | cons a b => simp
      · exact ih hok.2 t h

theorem renderTemplate_substToks (data : Entity) (parts : List (String ⊕ String))
    (ts : List String)
    (hcov : ∀ t, (Sum.inr t : String ⊕ String) ∈ parts → t ∈ ts) :
    renderTemplate (substToks data ts parts) = renderResolved data parts := by
  rw [substToks_eq_map]
  revert hcov
  induction parts with
  | nil => intro _; rfl
  | cons part rest ihp =>
    intro hcov
    rw [List.map_cons]
    cases part with
    | inl l =>
      show l.data ++ _ = l.data ++ _
      rw [ihp (fun t h2 => hcov t (List.mem_cons_of_mem _ h2))]
    | inr u =>
      have hu : u ∈ ts := hcov u (List.mem_cons_self _ _)
      have hred : (match (Sum.inr u : String ⊕ String) with
          | Sum.inl l => Sum.inl l
          | Sum.inr u2 => if u2 ∈ ts then Sum.inl (optValToStr (lookupE data u2))
              else Sum.inr u2) =
          (Sum.inl (optValToStr (lookupE data u)) : String ⊕ String) := by
        show (if u ∈ ts then (Sum.inl (optValToStr (lookupE data u)) : String ⊕ String)
          else Sum.inr u) = _
        rw [if_pos hu]
      rw [hred]
      show (optValToStr (lookupE data u)).data ++ _ =
        (optValToStr (lookupE data u)).data ++ _
      rw [ihp (fun t h2 => hcov t (List.mem_cons_of_mem _ h2))]

/-- Counterexample for claim C3: resolving the single-placeholder template
against an entity without the referenced field does not fail; it silently
produces the key string undefined, because the JS replace coerces the
missing value.  There is no error path in the source helper and no
ConfigurationError class in the repository. -/
theorem key_missing_field_cex :
    key ("\x7bid\x7d") ([] : Entity) = ("undefined") := by
  decide

/-- Claim C3 as amended: key resolution never fails; a placeholder whose
field is absent is replaced by the text undefined, and on a well-formed
template whose referenced fields are all present, with substituted values
containing no opening brace and no dollar sign, the result is the
template with each placeholder replaced by that field's value. -/
theorem key_substitutes_present_fields (parts : List (String ⊕ String))
    (pattern : String) (data : Entity)
    (hpat : pattern.data = renderTemplate parts)
    (hok : partsOk parts = true)
    (hvals : ∀ t ∈ partTokens parts,
      (optValToStr (lookupE data t)).data.all
        (fun c => decide (c ≠ braceL ∧ c ≠ ('$' : Char))) = true)
    (hpresent : ∀ t ∈ partTokens parts, (lookupE data t).isSome = true) :
    key pattern data = String.mk (renderResolved data parts) ∧
    (∀ t ∈ partTokens parts, ∃ v, lookupE data t = some v ∧
      optValToStr (lookupE data t) = JSVal.toStr v) := by
  constructor
  · unfold key keyTokens
    rw [hpat, tokGo_render parts hok]
    rw [foldl_replace_render data (partTokens parts) parts hok
      (fun t ht => (partTokens_ok parts hok t ht).2) hvals]
    rw [renderTemplate_substToks data parts (partTokens parts) (mem_inr_partTokens parts)]
  · intro t ht
    obtain ⟨v, hv⟩ := Option.isSome_iff_exists.mp (hpresent t ht)
    exact ⟨v, hv, by rw [hv]; rfl⟩

/-- Witness for key_substitutes_present_fields on the worked example
template. -/
theorem key_substitutes_present_fields_case :
    key ("user#\x7bid\x7d") [(("id"), JSVal.vStr ("42"))] =
      String.mk (renderResolved [(("id"), JSVal.vStr ("42"))]
        [Sum.inl ("user#"), Sum.inr ("id")]) ∧
    String.mk (renderResolved [(("id"), JSVal.vStr ("42"))]
        [Sum.inl ("user#"), Sum.inr ("id")]) = ("user#42") := by
  refine ⟨(key_substitutes_present_fields [Sum.inl ("user#"), Sum.inr ("id")]
    ("user#\x7bid\x7d") [(("id"), JSVal.vStr ("42"))] (by decide) (by decide)
    (by decide) (by decide)).1, by decide⟩

end Coll

namespace Util

theorem hexVal_hexDigit : ∀ n, n < 16 → hexVal (hexDigit n) = some n := by
  decide

theorem parseStr_escape : ∀ (s acc rest : List Char),
    parseStr (s.flatMap escapeChar ++ '"' :: rest) acc .norm =
      some (acc.reverse ++ s, rest) := by
  intro s
  induction s with
  | nil =>
    intro acc rest
    show parseStr ('"' :: rest) acc .norm = _
    simp [parseStr]
  | cons c s2 ih =>
    intro acc rest
    rw [List.flatMap_cons, List.append_assoc]
    by_cases h1 : c = '"'
    · subst h1
      rw [show escapeChar '"' = ['\\', '"'] from rfl]
      simp [parseStr, ih, List.append_assoc]
    · by_cases h2 : c = '\\'
      · subst h2
        rw [show escapeChar '\\' = ['\\', '\\'] from rfl]
        simp [parseStr, ih, List.append_assoc]
      · by_cases h3 : c = Char.ofNat 8
        · subst h3
          rw [show escapeChar (Char.ofNat 8) = ['\\', 'b'] from rfl]
          simp [parseStr, ih, List.append_assoc]
        · by_cases h4 : c = Char.ofNat 9
          · subst h4
            rw [show escapeChar (Char.ofNat 9) = ['\\', 't'] from rfl]
            simp [parseStr, ih, List.append_assoc]
          · by_cases h5 : c = Char.ofNat 10
            · subst h5
              rw [show escapeChar (Char.ofNat 10) = ['\\', 'n'] from rfl]
              simp [parseStr, ih, List.append_assoc]
            · by_cases h6 : c = Char.ofNat 12
              · subst h6
                rw [show escapeChar (Char.ofNat 12) = ['\\', 'f'] from rfl]
                simp [parseStr, ih, List.append_assoc]
              · by_cases h7 : c = Char.ofNat 13
                · subst h7
                  rw [show escapeChar (Char.ofNat 13) = ['\\', 'r'] from rfl]
                  simp [parseStr, ih, List.append_assoc]
                · by_cases h8 : c.toNat < 32
                  · rw [show escapeChar c = ['\\', 'u', '0', '0',
                        hexDigit (c.toNat / 16), hexDigit (c.toNat % 16)] from by
                      unfold escapeChar
                      rw [if_neg h1, if_neg h2, if_neg h3, if_neg h4, if_neg h5,
                        if_neg h6, if_neg h7, if_pos h8]]
                    have hd1 : hexVal (hexDigit (c.toNat / 16)) = some (c.toNat / 16) :=
                      hexVal_hexDigit _ (by omega)
                    have hd0 : hexVal (hexDigit (c.toNat % 16)) = some (c.toNat % 16) :=
                      hexVal_hexDigit _ (by omega)
                    have hch : Char.ofNat (c.toNat / 16 * 16 + c.toNat % 16) = c := by
                      have harith : c.toNat / 16 * 16 + c.toNat % 16 = c.toNat := by omega
                      rw [harith]
                      exact Char.ofNat_toNat c
                    have h00 : hexVal ('0') = some 0 := by decide
                    simp [parseStr, h00, hd1, hd0, hch, ih, List.append_assoc]
                  · rw [show escapeChar c = [c] from by
                      unfold escapeChar
                      rw [if_neg h1, if_neg h2, if_neg h3, if_neg h4, if_neg h5,
                        if_neg h6, if_neg h7, if_neg h8]]
                    simp [parseStr, h1, h2, ih, List.append_assoc]

theorem pairChars_shape (kv : String × String) (x : List Char) :
    pairChars kv ++ x =
      '"' :: (kv.1.data.flatMap escapeChar ++
        '"' :: (':' :: ('"' :: (kv.2.data.flatMap escapeChar ++ '"' :: x)))) := by
  simp [pairChars, escStr, List.append_assoc]

theorem parsePairs_render : ∀ (t : Token) (fuel : Nat), t ≠ [] →
    (pairsChars t ++ [rbrace]).length ≤ fuel →
    parsePairsF fuel (pairsChars t ++ [rbrace]) = some t := by
  intro t
  induction t with
  | nil => intro fuel h _; exact absurd rfl h
  | cons kv t2 ih =>
    intro fuel _ hfuel
    cases fuel with
    | zero =>
      exfalso
      have : 0 < (pairsChars (kv :: t2) ++ [rbrace]).length := by
        simp [List.length_append]
      omega
    | succ f =>
      cases t2 with
      | nil =>
        show parsePairsF (f + 1) (pairChars kv ++ [rbrace]) = some [kv]
        rw [pairChars_shape kv [rbrace]]
        simp only [parsePairsF, if_pos rfl]
        rw [parseStr_escape kv.1.data [] (':' :: ('"' :: (kv.2.data.flatMap escapeChar ++ '"' :: [rbrace])))]
        simp only [List.reverse_nil, List.nil_append]
        simp only [if_true]
        rw [parseStr_escape kv.2.data [] [rbrace]]
        simp only [List.reverse_nil, List.nil_append]
        have hne : (rbrace : Char) ≠ (',') := by decide
        simp [Coll.strMk_data, hne]
      | cons kv2 t3 =>
        show parsePairsF (f + 1)
          ((pairChars kv ++ ',' :: pairsChars (kv2 :: t3)) ++ [rbrace]) = some (kv :: kv2 :: t3)
        rw [List.append_assoc, List.cons_append]
        rw [pairChars_shape kv (',' :: (pairsChars (kv2 :: t3) ++ [rbrace]))]
        simp only [parsePairsF, if_pos rfl]
        rw [parseStr_escape kv.1.data []
          (':' :: ('"' :: (kv.2.data.flatMap escapeChar ++
            '"' :: (',' :: (pairsChars (kv2 :: t3) ++ [rbrace])))))]
        simp only [List.reverse_nil, List.nil_append]
        simp only [if_true]
        rw [parseStr_escape kv.2.data [] (',' :: (pairsChars (kv2 :: t3) ++ [rbrace]))]
        simp only [List.reverse_nil, List.nil_append]
        have hrec : parsePairsF f (pairsChars (kv2 :: t3) ++ [rbrace]) = some (kv2 :: t3) := by
          refine ih f (by simp) ?_
          have hlen : (pairsChars (kv :: kv2 :: t3) ++ [rbrace]).length =
              (pairChars kv).length + 1 + (pairsChars (kv2 :: t3) ++ [rbrace]).length := by
            show ((pairChars kv ++ ',' :: pairsChars (kv2 :: t3)) ++ [rbrace]).length = _
            simp [List.length_append]
            omega
          have hpos : 0 < (pairChars kv).length := by
            rw [show pairChars kv = pairChars kv ++ [] by simp, pairChars_shape kv []]
            simp
          omega
        rw [hrec]
        simp [Coll.strMk_data]

theorem pairsChars_cons_shape (kv : Prod String String) (t2 : Token) :
    ∃ tl : List Char, pairsChars (kv :: t2) = '"' :: tl := by
  cases t2 with
  | nil =>
    exact ⟨(kv.1.data.flatMap escapeChar ++ ['"']) ++ ':' :: escStr kv.2, rfl⟩
  | cons kv2 t3 =>
    exact ⟨(kv.1.data.flatMap escapeChar ++ ['"']) ++
      ':' :: escStr kv.2 ++ ',' :: pairsChars (kv2 :: t3), rfl⟩

theorem parseToken_step (c2 : Char) (rest2 : List Char) :
    parseToken (lbrace :: (c2 :: rest2)) =
      (if c2 = rbrace then (if rest2 = [] then some [] else none)
       else parsePairsF (c2 :: rest2).length (c2 :: rest2)) := by
  simp [parseToken]

theorem parseToken_render (t : Token) :
    parseToken (jsonStringifyToken t).data = some t := by
  show parseToken (lbrace :: (pairsChars t ++ [rbrace])) = some t
  cases t with
  | nil =>
    simp [parseToken, pairsChars]
  | cons kv t2 =>
    obtain ⟨tl, htl⟩ := pairsChars_cons_shape kv t2
    show parseToken (lbrace :: (pairsChars (kv :: t2) ++ [rbrace])) = some (kv :: t2)
    rw [htl, List.cons_append, parseToken_step,
      if_neg (show ('"' : Char) ≠ rbrace from by decide)]
    rw [show ('"' : Char) :: (tl ++ [rbrace]) = pairsChars (kv :: t2) ++ [rbrace] from by
      rw [htl, List.cons_append]]
    exact parsePairs_render (kv :: t2) _ (by simp) (Nat.le_refl _)

end Util

namespace Util

theorem char_toNat_lt (c : Char) : c.toNat < 1114112 := by
  have hv := c.valid
  rcases hv with h | ⟨h1, h2⟩
  · have : c.toNat = c.val.toNat := rfl
    rw [this]
    omega
  · have : c.toNat = c.val.toNat := rfl
    rw [this]
    omega

theorem utf8EncodeChar_lt (c : Char) : ∀ b ∈ utf8EncodeChar c, b < 256 := by
  intro b hb
  have hv := char_toNat_lt c
  unfold utf8EncodeChar at hb
  by_cases h1 : c.toNat < 128
  · rw [if_pos h1] at hb
    simp at hb
    omega
  · rw [if_neg h1] at hb
    by_cases h2 : c.toNat < 2048
    · rw [if_pos h2] at hb
      simp at hb
      rcases hb with rfl | rfl <;> omega
    · rw [if_neg h2] at hb
      by_cases h3 : c.toNat < 65536
      · rw [if_pos h3] at hb
        simp at hb
        rcases hb with rfl | rfl | rfl <;> omega
      · rw [if_neg h3] at hb
        simp at hb
        rcases hb with rfl | rfl | rfl | rfl <;> omega

theorem utf8Encode_lt (s : String) : ∀ b ∈ utf8Encode s, b < 256 := by
  intro b hb
  unfold utf8Encode at hb
  rw [List.mem_flatMap] at hb
  obtain ⟨c, _, hbc⟩ := hb
  exact utf8EncodeChar_lt c b hbc

theorem utf8_ascii_map (l : List Char) (h : ∀ c ∈ l, c.toNat < 128) :
    (l.flatMap utf8EncodeChar).map (fun b => Char.ofNat (b % 128)) = l := by
  induction l with
  | nil => rfl
  | cons c l2 ih =>
    rw [List.flatMap_cons, List.map_append]
    have hc : c.toNat < 128 := h c (List.mem_cons_self _ _)
    rw [show utf8EncodeChar c = [c.toNat] from by unfold utf8EncodeChar; rw [if_pos hc]]
    rw [show ([c.toNat].map (fun b => Char.ofNat (b % 128))) = [c] from by
      simp [Nat.mod_eq_of_lt hc, Char.ofNat_toNat]]
    rw [ih (fun c2 h2 => h c2 (List.mem_cons_of_mem _ h2))]
    rfl

theorem asciiDecode_utf8 (s : String) (h : ∀ c ∈ s.data, c.toNat < 128) :
    asciiDecode (utf8Encode s) = s := by
  unfold asciiDecode utf8Encode
  rw [utf8_ascii_map s.data h]

theorem charSextet_sextetChar : ∀ v, v < 64 → charSextet (sextetChar v) = some v := by
  decide

theorem charSextet_pad : charSextet ('=') = none := by
  decide

theorem b64_roundtrip : ∀ (k : Nat) (bs : List Nat), bs.length ≤ k → (∀ b ∈ bs, b < 256) →
    decSextets ((encB64 bs).filterMap charSextet) = bs := by
  intro k
  induction k with
  | zero =>
    intro bs hl _
    have : bs = [] := List.length_eq_zero.mp (Nat.le_zero.mp hl)
    subst this
    rfl
  | succ k ih =>
    intro bs hl hb
    cases bs with
    | nil => rfl
    | cons b1 rest1 =>
      cases rest1 with
      | nil =>
        have h1 : b1 < 256 := hb b1 (by simp)
        show decSextets (([sextetChar (b1 / 4), sextetChar (b1 % 4 * 16), '=', '='] :
          List Char).filterMap charSextet) = [b1]
        simp only [List.filterMap_cons,
          charSextet_sextetChar _ (show b1 / 4 < 64 by omega),
          charSextet_sextetChar _ (show b1 % 4 * 16 < 64 by omega),
          charSextet_pad, List.filterMap_nil]
        show [b1 / 4 * 4 + b1 % 4 * 16 / 16] = [b1]
        have : b1 / 4 * 4 + b1 % 4 * 16 / 16 = b1 := by omega
        rw [this]
      | cons b2 rest2 =>
        cases rest2 with
        | nil =>
          have h1 : b1 < 256 := hb b1 (by simp)
          have h2 : b2 < 256 := hb b2 (by simp)
          show decSextets (([sextetChar (b1 / 4), sextetChar (b1 % 4 * 16 + b2 / 16),
            sextetChar (b2 % 16 * 4), '='] : List Char).filterMap charSextet) = [b1, b2]
          simp only [List.filterMap_cons,
            charSextet_sextetChar _ (show b1 / 4 < 64 by omega),
            charSextet_sextetChar _ (show b1 % 4 * 16 + b2 / 16 < 64 by omega),
            charSextet_sextetChar _ (show b2 % 16 * 4 < 64 by omega),
            charSextet_pad, List.filterMap_nil]
          show [b1 / 4 * 4 + (b1 % 4 * 16 + b2 / 16) / 16,
            (b1 % 4 * 16 + b2 / 16) % 16 * 16 + b2 % 16 * 4 / 4] = [b1, b2]
          have e1 : b1 / 4 * 4 + (b1 % 4 * 16 + b2 / 16) / 16 = b1 := by omega
          have e2 : (b1 % 4 * 16 + b2 / 16) % 16 * 16 + b2 % 16 * 4 / 4 = b2 := by omega
          rw [e1, e2]
        | cons b3 rest =>
          have h1 : b1 < 256 := hb b1 (by simp)
          have h2 : b2 < 256 := hb b2 (by simp)
          have h3 : b3 < 256 := hb b3 (by simp)
          show decSextets ((sextetChar (b1 / 4) :: sextetChar (b1 % 4 * 16 + b2 / 16) ::
            sextetChar (b2 % 16 * 4 + b3 / 64) :: sextetChar (b3 % 64) ::
            encB64 rest).filterMap charSextet) = b1 :: b2 :: b3 :: rest
          simp only [List.filterMap_cons,
            charSextet_sextetChar _ (show b1 / 4 < 64 by omega),
            charSextet_sextetChar _ (show b1 % 4 * 16 + b2 / 16 < 64 by omega),
            charSextet_sextetChar _ (show b2 % 16 * 4 + b3 / 64 < 64 by omega),
            charSextet_sextetChar _ (show b3 % 64 < 64 by omega)]
          show (b1 / 4 * 4 + (b1 % 4 * 16 + b2 / 16) / 16) ::
            ((b1 % 4 * 16 + b2 / 16) % 16 * 16 + (b2 % 16 * 4 + b3 / 64) / 4) ::
            ((b2 % 16 * 4 + b3 / 64) % 4 * 64 + b3 % 64) ::
            decSextets ((encB64 rest).filterMap charSextet) = b1 :: b2 :: b3 :: rest
          have e1 : b1 / 4 * 4 + (b1 % 4 * 16 + b2 / 16) / 16 = b1 := by omega
          have e2 : (b1 % 4 * 16 + b2 / 16) % 16 * 16 + (b2 % 16 * 4 + b3 / 64) / 4 = b2 := by
            omega
          have e3 : (b2 % 16 * 4 + b3 / 64) % 4 * 64 + b3 % 64 = b3 := by omega
          rw [e1, e2, e3]
          rw [ih rest (by simp only [List.length_cons] at hl; omega)
            (fun b h4 => hb b (by simp [h4]))]

theorem base64_roundtrip (bs : List Nat) (h : ∀ b ∈ bs, b < 256) :
    base64DecodeBytes (base64Encode bs) = bs := by
  unfold base64DecodeBytes base64Encode
  exact b64_roundtrip bs.length bs (Nat.le_refl _) h

theorem hexDigit_lt (n : Nat) : (hexDigit n).toNat < 128 := by
  by_cases h : n < 16
  · have hall : ∀ m, m < 16 → (hexDigit m).toNat < 128 := by decide
    exact hall n h
  · unfold hexDigit
    rw [List.getD_eq_default]
    · decide
    · have hlen : (("0123456789abcdef").data).length = 16 := by decide
      omega

theorem escapeChar_lt (c : Char) (h : c.toNat < 128) : ∀ e ∈ escapeChar c, e.toNat < 128 := by
  intro e he
  unfold escapeChar at he
  split_ifs at he with h1 h2 h3 h4 h5 h6 h7 h8
  · simp at he; rcases he with rfl | rfl <;> decide
  · simp at he; rcases he with rfl | rfl <;> decide
  · simp at he; rcases he with rfl | rfl <;> decide
  · simp at he; rcases he with rfl | rfl <;> decide
  · simp at he; rcases he with rfl | rfl <;> decide
  · simp at he; rcases he with rfl | rfl <;> decide
  · simp at he; rcases he with rfl | rfl <;> decide
  · simp at he
    rcases he with rfl | rfl | rfl | rfl | rfl
    · decide
    · decide
    · decide
    · exact hexDigit_lt _
    · exact hexDigit_lt _
  · simp at he
    subst he
    exact h

theorem escStr_lt (s : String) (h : ∀ c ∈ s.data, c.toNat < 128) :
    ∀ c ∈ escStr s, c.toNat < 128 := by
  intro c hc
  unfold escStr at hc
  rcases List.mem_cons.mp hc with rfl | hc2
  · decide
  rcases List.mem_append.mp hc2 with hc3 | hc4
  · rw [List.mem_flatMap] at hc3
    obtain ⟨c2, hc2m, hce⟩ := hc3
    exact escapeChar_lt c2 (h c2 hc2m) c hce
  · simp at hc4
    subst hc4
    decide

theorem pairChars_lt (kv : String × String)
    (h1 : ∀ c ∈ kv.1.data, c.toNat < 128) (h2 : ∀ c ∈ kv.2.data, c.toNat < 128) :
    ∀ c ∈ pairChars kv, c.toNat < 128 := by
  intro c hc
  unfold pairChars at hc
  rcases List.mem_append.mp hc with hc2 | hc3
  · exact escStr_lt kv.1 h1 c hc2
  · rcases List.mem_cons.mp hc3 with rfl | hc4
    · decide
    · exact escStr_lt kv.2 h2 c hc4

theorem pairsChars_lt : ∀ (t : Token),
    (∀ kv ∈ t, (∀ c ∈ kv.1.data, c.toNat < 128) ∧ (∀ c ∈ kv.2.data, c.toNat < 128)) →
    ∀ c ∈ pairsChars t, c.toNat < 128 := by
  intro t
  induction t with
  | nil => intro _ c hc; simp [pairsChars] at hc
  | cons kv t2 ih =>
    intro hall c hc
    have hkv := hall kv (List.mem_cons_self _ _)
    cases t2 with
    | nil => exact pairChars_lt kv hkv.1 hkv.2 c hc
    | cons kv2 t3 =>
      show c.toNat < 128
      have hc2 : c ∈ pairChars kv ++ ',' :: pairsChars (kv2 :: t3) := hc
      rcases List.mem_append.mp hc2 with hc3 | hc4
      · exact pairChars_lt kv hkv.1 hkv.2 c hc3
      · rcases List.mem_cons.mp hc4 with rfl | hc5
        · decide
        · exact ih (fun kv3 h3 => hall kv3 (List.mem_cons_of_mem _ h3)) c hc5

theorem stringify_lt (t : Token)
    (hascii : ∀ kv ∈ t, (∀ c ∈ kv.1.data, c.toNat < 128) ∧ (∀ c ∈ kv.2.data, c.toNat < 128)) :
    ∀ c ∈ (jsonStringifyToken t).data, c.toNat < 128 := by
  intro c hc
  have hc2 : c ∈ lbrace :: (pairsChars t ++ [rbrace]) := hc
  rcases List.mem_cons.mp hc2 with rfl | hc3
  · decide
  rcases List.mem_append.mp hc3 with hc4 | hc5
  · exact pairsChars_lt t hascii c hc4
  · simp at hc5
    subst hc5
    decide

/-- Counterexample for claim C4: a native token holding a single
non-ASCII character does not round-trip, because the ascii decoding in
fromCursor strips the high bit of every byte: the UTF-8 bytes 195 and
169 of the character come back as the two characters C and a closing
parenthesis. -/
theorem cursor_roundtrip_cex :
    fromCursor (toCursor [(("pk"), String.mk [Char.ofNat 233])]) =
      some [(("pk"), ("C)"))] ∧
    (some [(("pk"), ("C)"))] : Option Token) ≠
      some [(("pk"), String.mk [Char.ofNat 233])] := by
  constructor
  · decide
  · decide

/-- Claim C4 as amended: on native tokens whose field names and values
are 7-bit, toCursor and fromCursor are exact inverses in both directions,
and fromCursor fails on a string whose decoded text is not a valid token
serialization, such as the empty string. -/
theorem cursor_roundtrip_ascii (t : Token)
    (hascii : ∀ kv ∈ t, (∀ c ∈ kv.1.data, c.toNat < 128) ∧
      (∀ c ∈ kv.2.data, c.toNat < 128)) :
    fromCursor (toCursor t) = some t ∧
    (fromCursor (toCursor t)).map toCursor = some (toCursor t) ∧
    fromCursor ("") = none := by
  have h1 : fromCursor (toCursor t) = some t := by
    unfold fromCursor toCursor
    rw [base64_roundtrip _ (utf8Encode_lt _)]
    rw [asciiDecode_utf8 _ (stringify_lt t hascii)]
    exact parseToken_render t
  refine ⟨h1, ?_, rfl⟩
  rw [h1]
  rfl

/-- Witness for cursor_roundtrip_ascii on a realistic continuation
token. -/
theorem cursor_roundtrip_ascii_case :
    fromCursor (toCursor [(("pk"), ("user#42")), (("sk"), ("profile"))]) =
      some [(("pk"), ("user#42")), (("sk"), ("profile"))] := by
  exact (cursor_roundtrip_ascii [(("pk"), ("user#42")), (("sk"), ("profile"))]
    (by decide)).1

end Util
